import Mathlib

/-! UnifiedWAF: the packet inspection engine of `src/App.jsx`

A shallow embedding of `analyzePacket`, the single-pass inspection that runs a
stack-based delimiter validator (the "PDA") and a normalising signature scanner
(the "DFA") side by side, and of the verdict it derives from both.

JavaScript strings are sequences of UTF-16 code units, and every index, length
and `substring` of the source counts code units.  A string is therefore modelled
as a `List Nat` of code units, and a one-unit string such as `content[i]` by its
code unit.
-/

namespace UnifiedWAF

/-- A JavaScript string, as the list of its UTF-16 code units. -/
abbrev JSString := List Nat

/-- The UTF-16 code units of one Unicode scalar value (a surrogate pair above the BMP). -/
def utf16Char (c : Char) : JSString :=
  if c.toNat < 0x10000 then [c.toNat]
  else [0xD800 + (c.toNat - 0x10000) / 0x400, 0xDC00 + (c.toNat - 0x10000) % 0x400]

/-- The JavaScript string denoted by a string literal. -/
def utf16 (s : String) : JSString := s.data.flatMap utf16Char

/-! ## String primitives used by the source -/

/-- Clamp an integer argument of `substring` into `0 .. len`. -/
def clampIndex (len : Nat) (k : Int) : Nat := min k.toNat len

/-- The method `String.prototype.substring(start, end)`: both arguments are clamped into
`0 .. length`, swapped when `start > end`, and the units in between are returned. -/
def substring (s : JSString) (start stop : Int) : JSString :=
  let a := clampIndex s.length start
  let b := clampIndex s.length stop
  (s.drop (min a b)).take (max a b - min a b)

/-- The method `String.prototype.endsWith(pattern)`. -/
def endsWith (s pattern : JSString) : Bool :=
  decide (pattern.length ≤ s.length) && s.drop (s.length - pattern.length) == pattern

/-- Simple (one unit to one unit) lower-case mappings of the Basic Multilingual Plane above
ASCII (Unicode 14 `UnicodeData`): `(lo, hi, step, target)` maps every unit `lo + k * step`
up to `hi` to `target + k * step`. -/
def lowerTable : List (Nat × Nat × Nat × Nat) := [
  (192, 214, 1, 224), (216, 222, 1, 248), (256, 302, 2, 257), (306, 310, 2, 307),
  (313, 327, 2, 314), (330, 374, 2, 331), (376, 376, 1, 255), (377, 381, 2, 378),
  (385, 385, 1, 595), (386, 388, 2, 387), (390, 390, 1, 596), (391, 391, 1, 392),
  (393, 394, 1, 598), (395, 395, 1, 396), (398, 398, 1, 477), (399, 399, 1, 601),
  (400, 400, 1, 603), (401, 401, 1, 402), (403, 403, 1, 608), (404, 404, 1, 611),
  (406, 406, 1, 617), (407, 407, 1, 616), (408, 408, 1, 409), (412, 412, 1, 623),
  (413, 413, 1, 626), (415, 415, 1, 629), (416, 420, 2, 417), (422, 422, 1, 640),
  (423, 423, 1, 424), (425, 425, 1, 643), (428, 428, 1, 429), (430, 430, 1, 648),
  (431, 431, 1, 432), (433, 434, 1, 650), (435, 437, 2, 436), (439, 439, 1, 658),
  (440, 440, 1, 441), (444, 444, 1, 445), (452, 452, 1, 454), (453, 453, 1, 454),
  (455, 455, 1, 457), (456, 456, 1, 457), (458, 458, 1, 460), (459, 475, 2, 460),
  (478, 494, 2, 479), (497, 497, 1, 499), (498, 500, 2, 499), (502, 502, 1, 405),
  (503, 503, 1, 447), (504, 542, 2, 505), (544, 544, 1, 414), (546, 562, 2, 547),
  (570, 570, 1, 11365), (571, 571, 1, 572), (573, 573, 1, 410), (574, 574, 1, 11366),
  (577, 577, 1, 578), (579, 579, 1, 384), (580, 580, 1, 649), (581, 581, 1, 652),
  (582, 590, 2, 583), (880, 882, 2, 881), (886, 886, 1, 887), (895, 895, 1, 1011),
  (902, 902, 1, 940), (904, 906, 1, 941), (908, 908, 1, 972), (910, 911, 1, 973),
  (913, 929, 1, 945), (931, 939, 1, 963), (975, 975, 1, 983), (984, 1006, 2, 985),
  (1012, 1012, 1, 952), (1015, 1015, 1, 1016), (1017, 1017, 1, 1010), (1018, 1018, 1, 1019),
  (1021, 1023, 1, 891), (1024, 1039, 1, 1104), (1040, 1071, 1, 1072), (1120, 1152, 2, 1121),
  (1162, 1214, 2, 1163), (1216, 1216, 1, 1231), (1217, 1229, 2, 1218), (1232, 1326, 2, 1233),
  (1329, 1366, 1, 1377), (4256, 4293, 1, 11520), (4295, 4295, 1, 11559), (4301, 4301, 1, 11565),
  (5024, 5103, 1, 43888), (5104, 5109, 1, 5112), (7312, 7354, 1, 4304), (7357, 7359, 1, 4349),
  (7680, 7828, 2, 7681), (7838, 7838, 1, 223), (7840, 7934, 2, 7841), (7944, 7951, 1, 7936),
  (7960, 7965, 1, 7952), (7976, 7983, 1, 7968), (7992, 7999, 1, 7984), (8008, 8013, 1, 8000),
  (8025, 8031, 2, 8017), (8040, 8047, 1, 8032), (8072, 8079, 1, 8064), (8088, 8095, 1, 8080),
  (8104, 8111, 1, 8096), (8120, 8121, 1, 8112), (8122, 8123, 1, 8048), (8124, 8124, 1, 8115),
  (8136, 8139, 1, 8050), (8140, 8140, 1, 8131), (8152, 8153, 1, 8144), (8154, 8155, 1, 8054),
  (8168, 8169, 1, 8160), (8170, 8171, 1, 8058), (8172, 8172, 1, 8165), (8184, 8185, 1, 8056),
  (8186, 8187, 1, 8060), (8188, 8188, 1, 8179), (8486, 8486, 1, 969), (8490, 8490, 1, 107),
  (8491, 8491, 1, 229), (8498, 8498, 1, 8526), (8544, 8559, 1, 8560), (8579, 8579, 1, 8580),
  (9398, 9423, 1, 9424), (11264, 11311, 1, 11312), (11360, 11360, 1, 11361),
  (11362, 11362, 1, 619), (11363, 11363, 1, 7549), (11364, 11364, 1, 637),
  (11367, 11371, 2, 11368), (11373, 11373, 1, 593), (11374, 11374, 1, 625),
  (11375, 11375, 1, 592), (11376, 11376, 1, 594), (11378, 11378, 1, 11379),
  (11381, 11381, 1, 11382), (11390, 11391, 1, 575), (11392, 11490, 2, 11393),
  (11499, 11501, 2, 11500), (11506, 11506, 1, 11507), (42560, 42604, 2, 42561),
  (42624, 42650, 2, 42625), (42786, 42798, 2, 42787), (42802, 42862, 2, 42803),
  (42873, 42875, 2, 42874), (42877, 42877, 1, 7545), (42878, 42886, 2, 42879),
  (42891, 42891, 1, 42892), (42893, 42893, 1, 613), (42896, 42898, 2, 42897),
  (42902, 42920, 2, 42903), (42922, 42922, 1, 614), (42923, 42923, 1, 604),
  (42924, 42924, 1, 609), (42925, 42925, 1, 620), (42926, 42926, 1, 618), (42928, 42928, 1, 670),
  (42929, 42929, 1, 647), (42930, 42930, 1, 669), (42931, 42931, 1, 43859),
  (42932, 42946, 2, 42933), (42948, 42948, 1, 42900), (42949, 42949, 1, 642),
  (42950, 42950, 1, 7566), (42951, 42953, 2, 42952), (42960, 42960, 1, 42961),
  (42966, 42968, 2, 42967), (42997, 42997, 1, 42998), (65313, 65338, 1, 65345)]

/-- Lower-case form of a code unit whose lower-case form is again a single code unit. -/
def lowerUnit (c : Nat) : Nat :=
  if c < 128 then (if 65 ≤ c ∧ c ≤ 90 then c + 32 else c)
  else
    match lowerTable.find? (fun r => decide (r.1 ≤ c) && decide (c ≤ r.2.1) &&
        (c - r.1) % r.2.2.1 == 0) with
    | some r => r.2.2.2 + (c - r.1)
    | none => c

/-- The method `String.prototype.toLowerCase` applied to a one-unit string.  The result is
a one-unit string except for U+0130 (capital I with dot above), the only code unit whose
lower-case form takes two units: `i` followed by U+0307.  Lone surrogates are unchanged. -/
def toLowerCase (c : Nat) : JSString :=
  if c = 0x130 then [0x69, 0x307] else [lowerUnit c]

/-! ## `normalizeChar` (App.jsx, lines 18-32) -/

/-- The substitution table `map` of `normalizeChar`: property name, value. -/
def map : List (JSString × JSString) :=
  [(utf16 "0", utf16 "o"), (utf16 "1", utf16 "l"), (utf16 "!", utf16 "i"),
   (utf16 "@", utf16 "a"), (utf16 "4", utf16 "a"), (utf16 "$", utf16 "s"),
   (utf16 "5", utf16 "s"), (utf16 "3", utf16 "e"), (utf16 "7", utf16 "t")]

/-- `normalizeChar(c)`: lower-case `c`, then `map[c] || c`.  The argument is a one-unit
string (every call site passes `content[i]` or an element of `split("")`); the result is
a string.  No inherited property of a plain object has a name of one or two units, so
only the nine own properties of `map` can be hit. -/
def normalizeChar (c : Nat) : JSString :=
  let c := toLowerCase c
  match map.lookup c with
  | some v => if v = [] then c else v
  | none => c

/-- The expression `s.split("").map(normalizeChar).join("")`. -/
def normalize (s : JSString) : JSString := (s.map normalizeChar).flatten

/-! ## State of one inspection (App.jsx, lines 34-49) -/

/-- An entry of `pdaLogs`. -/
structure PdaLog where
  index : Nat
  char : JSString
  action : JSString
  stack : List Nat
  valid : Bool
deriving DecidableEq, Repr

/-- An entry of `dfaLogs`. -/
structure DfaLog where
  index : Nat
  pattern : JSString
  snippet : JSString
  action : JSString
deriving DecidableEq, Repr

/-- The blocklist `patterns`, in table order. -/
def patterns : List JSString :=
  [utf16 "paypal", utf16 "secure", utf16 "login", utf16 "bank",
   utf16 "select", utf16 "union", utf16 "script", utf16 "admin"]

/-- The mutable variables of `analyzePacket`.  `stack` is the JavaScript array: `push`
appends at the end and the top of the stack is the last element. -/
structure State where
  stack : List Nat
  structureValid : Bool
  pdaLogs : List PdaLog
  dfaLogs : List DfaLog
  malwareFound : Bool
deriving DecidableEq, Repr

/-- The variables as initialised before the loop. -/
def State.init : State :=
  { stack := [], structureValid := true, pdaLogs := [], dfaLogs := [], malwareFound := false }

/-! ## Action texts -/

/-- The two code units of the emoji U+1F6A8 that opens every anomaly text. -/
def siren : JSString := [0xD83D, 0xDEA8]

def pushAction (rawChar : Nat) : JSString :=
  utf16 "Push \x27" ++ [rawChar] ++ utf16 "\x27 onto stack"

def unexpectedClosingAction (rawChar : Nat) : JSString :=
  siren ++ utf16 " Injection Suspected: Unexpected closing \x27" ++ [rawChar] ++ utf16 "\x27"

def popAction (top : Nat) : JSString :=
  utf16 "Pop \x27" ++ [top] ++ utf16 "\x27 - Match found"

def mismatchAction (top rawChar : Nat) : JSString :=
  siren ++ utf16 " Syntax Error: Mismatched \x27" ++ [top] ++ utf16 "\x27 vs \x27" ++
    [rawChar] ++ utf16 "\x27"

def truncatedAction (top : Nat) : JSString :=
  siren ++ utf16 " Truncated Request: Unclosed tag \x27" ++ [top] ++ utf16 "\x27"

def phishingAction (snippet pattern : JSString) : JSString :=
  siren ++ utf16 " Phishing Pattern: \x27" ++ snippet ++ utf16 "\x27 (Normalized: " ++
    pattern ++ utf16 ")"

/-! ## The structural validator (App.jsx, lines 55-103) -/

/-- The test `rawChar === "<" || rawChar === "\x7b" || rawChar === "("`. -/
def isOpener (rawChar : Nat) : Bool := rawChar == 60 || rawChar == 123 || rawChar == 40

/-- The test `rawChar === ">" || rawChar === "\x7d" || rawChar === ")"`. -/
def isCloser (rawChar : Nat) : Bool := rawChar == 62 || rawChar == 125 || rawChar == 41

/-- The constant `match` of the source: the closer `rawChar` agrees with the opener `top`. -/
def closes (rawChar top : Nat) : Bool :=
  (rawChar == 62 && top == 60) || (rawChar == 125 && top == 123) ||
    (rawChar == 41 && top == 40)

/-- The block guarded by `if (structureValid)`.  `getLast?` is `none` exactly when
`stack.length === 0`, and otherwise yields `stack[stack.length - 1]`. -/
def pdaTransition (s : State) (i rawChar : Nat) : State :=
  if s.structureValid then
    if isOpener rawChar then
      let stack := s.stack ++ [rawChar]
      { s with
        stack := stack
        pdaLogs := s.pdaLogs ++ [⟨i, [rawChar], pushAction rawChar, stack, true⟩] }
    else if isCloser rawChar then
      match s.stack.getLast? with
      | none =>
        { s with
          pdaLogs := s.pdaLogs ++
            [⟨i, [rawChar], unexpectedClosingAction rawChar, s.stack, false⟩]
          structureValid := false }
      | some top =>
        if closes rawChar top then
          let stack := s.stack.dropLast
          { s with
            stack := stack
            pdaLogs := s.pdaLogs ++ [⟨i, [rawChar], popAction top, stack, true⟩] }
        else
          { s with
            pdaLogs := s.pdaLogs ++
              [⟨i, [rawChar], mismatchAction top rawChar, s.stack, false⟩]
            structureValid := false }
    else s
  else s

/-! ## The signature scanner (App.jsx, lines 105-123) -/

/-- The normalised prefix is recomputed from `content.substring(0, i + 1)`; the first
pattern of the table that ends it is logged, and the `break` leaves the rest untested. -/
def dfaScan (content : JSString) (s : State) (i : Nat) : State :=
  let normalizedContent := normalize (substring content 0 (i + 1))
  match patterns.find? (fun pattern => endsWith normalizedContent pattern) with
  | some pattern =>
    let matchStart : Int := (i : Int) - (pattern.length : Int) + 1
    let snippet := substring content matchStart (i + 1)
    { s with
      dfaLogs := s.dfaLogs ++ [⟨i, pattern, snippet, phishingAction snippet pattern⟩]
      malwareFound := true }
  | none => s

/-! ## The inspection driver (App.jsx, lines 51-160) -/

/-- One iteration of the `for` loop.  The unused constant `normChar` is left out. -/
def loopBody (content : JSString) (s : State) (i : Nat) : State :=
  match content[i]? with
  | none => s
  | some rawChar => dfaScan content (pdaTransition s i rawChar) i

/-- The state after the iterations `0 .. n - 1` of the loop. -/
def runTo (content : JSString) (n : Nat) : State :=
  (List.range n).foldl (loopBody content) State.init

/-- The state when the loop `for (let i = 0; i < content.length; i++)` is left. -/
def mainLoop (content : JSString) : State := runTo content content.length

/-- The end-of-input check `if (structureValid && stack.length > 0)`. -/
def truncationCheck (content : JSString) (s : State) : State :=
  if s.structureValid then
    match s.stack.getLast? with
    | none => s
    | some top =>
      { s with
        pdaLogs := s.pdaLogs ++
          [⟨content.length, utf16 "EOF", truncatedAction top, s.stack, false⟩]
        structureValid := false }
  else s

/-- The object returned by `analyzePacket`. -/
structure Result where
  content : JSString
  pdaLogs : List PdaLog
  dfaLogs : List DfaLog
  structureValid : Bool
  malwareFound : Bool
  finalStack : List Nat
  decision : JSString
  reason : JSString
deriving DecidableEq, Repr

/-- The decision policy of lines 139-149, as the pair `(decision, reason)`. -/
def verdict (structureValid malwareFound : Bool) : JSString × JSString :=
  if !structureValid then (utf16 "BLOCKED", utf16 "Malformed/Injection")
  else if malwareFound then (utf16 "BLOCKED", utf16 "Phishing Signature")
  else (utf16 "ALLOWED", utf16 "Clean")

/-- The function `analyzePacket(content)`. -/
def analyzePacket (content : JSString) : Result :=
  let s := truncationCheck content (mainLoop content)
  let v := verdict s.structureValid s.malwareFound
  { content := content
    pdaLogs := s.pdaLogs
    dfaLogs := s.dfaLogs
    structureValid := s.structureValid
    malwareFound := s.malwareFound
    finalStack := s.stack
    decision := v.1
    reason := v.2 }

/-! ## Specification-side notions -/

/-- One of the six delimiter characters. -/
def isDelimiter (c : Nat) : Bool := isOpener c || isCloser c

/-- Balanced, type-correct nesting of the three delimiter pairs, as the usual grammar
`S ::= ε | < S > | \x7b S \x7d | ( S ) | S S` over code units. -/
inductive Balanced : List Nat → Prop
  | nil : Balanced []
  | angle {w : List Nat} : Balanced w → Balanced (60 :: (w ++ [62]))
  | brace {w : List Nat} : Balanced w → Balanced (123 :: (w ++ [125]))
  | paren {w : List Nat} : Balanced w → Balanced (40 :: (w ++ [41]))
  | append {u v : List Nat} : Balanced u → Balanced v → Balanced (u ++ v)

/-- The validator reduced to its stack: `none` once a fault has occurred. -/
def trackStep (st : Option (List Nat)) (c : Nat) : Option (List Nat) :=
  match st with
  | none => none
  | some stack =>
    if isOpener c then some (stack ++ [c])
    else if isCloser c then
      match stack.getLast? with
      | none => none
      | some top => if closes c top then some stack.dropLast else none
    else some stack

/-- Run `trackStep` over a word. -/
def track (st : Option (List Nat)) (w : List Nat) : Option (List Nat) := w.foldl trackStep st

/-- The validator's variables, without the scanner's. -/
def State.pda (s : State) : List Nat × Bool × List PdaLog := (s.stack, s.structureValid, s.pdaLogs)

/-- The stack while the validator is valid, `none` after a fault. -/
def State.trackState (s : State) : Option (List Nat) :=
  if s.structureValid then some s.stack else none

/-- The log-related facts that hold after any number of iterations. -/
structure PdaInv (n : Nat) (s : State) : Prop where
  index_lt : ∀ e ∈ s.pdaLogs, e.index < n
  all_valid : s.structureValid = true → ∀ e ∈ s.pdaLogs, e.valid = true
  last_stack : (s.pdaLogs.getLast?.map PdaLog.stack).getD [] = s.stack
  fault : s.structureValid = false →
    ∃ init e, s.pdaLogs = init ++ [e] ∧ e.valid = false ∧ ∀ e' ∈ init, e'.valid = true


/-- The normalised text the scanner tests at position `i`. -/
def normalizedPrefix (content : JSString) (i : Nat) : JSString :=
  normalize (substring content 0 (i + 1))

/-- The pattern the inner loop of the scanner stops at, at position `i`, if any. -/
def matchAt (content : JSString) (i : Nat) : Option JSString :=
  patterns.find? (fun pattern => endsWith (normalizedPrefix content i) pattern)

/-- The entry the scanner logs at position `i` for `pattern`. -/
def entryAt (content : JSString) (i : Nat) (pattern : JSString) : DfaLog :=
  let snippet := substring content ((i : Int) - (pattern.length : Int) + 1) (i + 1)
  ⟨i, pattern, snippet, phishingAction snippet pattern⟩

/-- The entry logged at position `i`, if any. -/
def scanAt (content : JSString) (i : Nat) : Option DfaLog :=
  (matchAt content i).map (entryAt content i)

/-- The closing symbol of an opener. -/
def closerOf (o : Nat) : Nat := if o = 60 then 62 else if o = 123 then 125 else 41

/-- The closers that close every opener of a stack given in opening order, innermost
first. -/
def closing (stack : List Nat) : List Nat := stack.reverse.map closerOf

/-- The scanner's log with the blocklist as a parameter: at every position the first term
of `table` that ends the normalised prefix is logged.  The source's scanner is the
instance `scanWith patterns`. -/
def scanWith (table : List JSString) (content : JSString) : List DfaLog :=
  (List.range content.length).filterMap (fun i =>
    (table.find? (fun pattern => endsWith (normalizedPrefix content i) pattern)).map
      (entryAt content i))

/-- A longest-match-wins scanner: at every position the longest blocklist term that ends
the normalised prefix is logged. -/
def scanLongest (content : JSString) : List DfaLog :=
  (List.range content.length).filterMap (fun i =>
    (List.argmax List.length
      (patterns.filter (fun pattern => endsWith (normalizedPrefix content i) pattern))).map
      (entryAt content i))

/-- The scanner that keeps the normalised text in an accumulator: `acc` is the normalised
text of the units before position `i`, and one normalised character is appended per step
before the same ordered suffix test is applied. -/
def incrementalFrom (content : JSString) : JSString → Nat → List Nat → List DfaLog
  | _, _, [] => []
  | acc, i, c :: rest =>
    let normalizedContent := acc ++ normalizeChar c
    (match patterns.find? (fun pattern => endsWith normalizedContent pattern) with
      | some pattern => [entryAt content i pattern]
      | none => []) ++ incrementalFrom content normalizedContent (i + 1) rest

/-- The signature log of the incremental scanner. -/
def incrementalScan (content : JSString) : List DfaLog :=
  incrementalFrom content [] 0 content

/-- Fold an ASCII capital letter to its small letter; every other unit is unchanged.  Two
payloads differ only in the case of ASCII letters when they agree after this folding. -/
def asciiFold (c : Nat) : Nat := if 65 ≤ c ∧ c ≤ 90 then c + 32 else c

/-- How the snapshot of a structural log entry relates to the snapshot `prev` of the entry
before it: a push entry appends its opener, a pop entry removes the last element, and an
entry with `valid = false` (an anomaly or the end-of-input entry) leaves it unchanged. -/
def SnapshotStep (prev : List Nat) (e : PdaLog) : Prop :=
  (∃ o, isOpener o = true ∧ e.char = [o] ∧ e.action = pushAction o ∧ e.valid = true ∧
    e.stack = prev ++ [o]) ∨
  (∃ c top, isCloser c = true ∧ e.char = [c] ∧ e.action = popAction top ∧ e.valid = true ∧
    prev.getLast? = some top ∧ e.stack = prev.dropLast) ∨
  (e.valid = false ∧ e.stack = prev)

/-- Every entry of a log is related by `SnapshotStep` to the snapshot before it, starting
from `prev`. -/
def SnapshotChain : List Nat → List PdaLog → Prop
  | _, [] => True
  | prev, e :: es => SnapshotStep prev e ∧ SnapshotChain e.stack es
/-! ## Basic facts about the loop -/

theorem runTo_zero (content : JSString) : runTo content 0 = State.init := rfl

theorem runTo_succ (content : JSString) (n : Nat) :
    runTo content (n + 1) = loopBody content (runTo content n) n := by
  simp [runTo, List.range_succ]

theorem dfaScan_pda (content : JSString) (s : State) (i : Nat) :
    (dfaScan content s i).pda = s.pda := by
  simp only [dfaScan]
  split <;> rfl

theorem loopBody_pda (content : JSString) (s : State) (i c : Nat) (h : content[i]? = some c) :
    (loopBody content s i).pda = (pdaTransition s i c).pda := by
  simp [loopBody, h, dfaScan_pda]

theorem pdaTransition_frozen (s : State) (i c : Nat) (h : s.structureValid = false) :
    pdaTransition s i c = s := by
  simp [pdaTransition, h]

theorem loopBody_pda_frozen (content : JSString) (s : State) (i : Nat)
    (h : s.structureValid = false) : (loopBody content s i).pda = s.pda := by
  unfold loopBody
  split
  · rfl
  · rw [dfaScan_pda, pdaTransition_frozen _ _ _ h]

theorem runTo_pda_frozen (content : JSString) (m n : Nat) (hmn : m ≤ n)
    (h : (runTo content m).structureValid = false) :
    (runTo content n).pda = (runTo content m).pda := by
  induction n, hmn using Nat.le_induction with
  | base => rfl
  | succ n _ ih =>
    have hv : (runTo content n).structureValid = false := by
      have := congrArg (fun p => p.2.1) ih
      simpa [State.pda, h] using this
    rw [runTo_succ, loopBody_pda_frozen _ _ _ hv, ih]

/-! ## The validator and the grammar -/

theorem trackStep_none (w : List Nat) : track none w = none := by
  induction w with
  | nil => rfl
  | cons c w ih => simpa [track, trackStep] using ih

theorem track_cons (st : Option (List Nat)) (c : Nat) (w : List Nat) :
    track st (c :: w) = track (trackStep st c) w := rfl

theorem track_append (st : Option (List Nat)) (u v : List Nat) :
    track st (u ++ v) = track (track st u) v := by
  simp [track, List.foldl_append]

theorem track_filter (st : Option (List Nat)) (w : List Nat) :
    track st (w.filter isDelimiter) = track st w := by
  induction w generalizing st with
  | nil => rfl
  | cons c w ih =>
    by_cases hc : isDelimiter c = true
    · rw [List.filter_cons_of_pos hc, track_cons, track_cons, ih]
    · rw [List.filter_cons_of_neg hc, track_cons, ih]
      congr 1
      cases st with
      | none => rfl
      | some stack =>
        simp only [isDelimiter, Bool.or_eq_true, not_or, Bool.not_eq_true] at hc
        simp [trackStep, hc.1, hc.2]

theorem track_pair (stack : List Nat) (o c : Nat) (w : List Nat) (ho : isOpener o = true)
    (hc : isCloser c = true) (hnc : isOpener c = false) (hoc : closes c o = true)
    (hw : ∀ st, track (some st) w = some st) :
    track (some stack) (o :: (w ++ [c])) = some stack := by
  rw [track_cons]
  simp only [trackStep, ho, if_true]
  rw [track_append, hw]
  simp [track, trackStep, hnc, hc, hoc]

theorem track_balanced {w : List Nat} (h : Balanced w) :
    ∀ stack, track (some stack) w = some stack := by
  induction h with
  | nil => intro stack; rfl
  | angle _ ih => intro stack; exact track_pair stack 60 62 _ rfl rfl rfl rfl ih
  | brace _ ih => intro stack; exact track_pair stack 123 125 _ rfl rfl rfl rfl ih
  | paren _ ih => intro stack; exact track_pair stack 40 41 _ rfl rfl rfl rfl ih
  | append _ _ ihu ihv => intro stack; rw [track_append, ihu, ihv]

theorem Balanced.pair {o c : Nat} (h : closes c o = true) : Balanced [o, c] := by
  simp only [closes, Bool.or_eq_true, Bool.and_eq_true, beq_iff_eq] at h
  rcases h with (⟨rfl, rfl⟩ | ⟨rfl, rfl⟩) | ⟨rfl, rfl⟩
  · exact Balanced.angle Balanced.nil
  · exact Balanced.brace Balanced.nil
  · exact Balanced.paren Balanced.nil

theorem Balanced.wrap_insert {o c : Nat} {w y : List Nat}
    (hwrap : ∀ {z : List Nat}, Balanced z → Balanced (o :: (z ++ [c])))
    (hw : Balanced w) (hy : Balanced y)
    (ih : ∀ u v, w = u ++ v → Balanced (u ++ y ++ v))
    (u v : List Nat) (h : o :: (w ++ [c]) = u ++ v) : Balanced (u ++ y ++ v) := by
  cases u with
  | nil =>
    simp only [List.nil_append] at h ⊢
    rw [← h]
    exact Balanced.append hy (hwrap hw)
  | cons a u =>
    simp only [List.cons_append, List.cons.injEq] at h
    obtain ⟨rfl, h⟩ := h
    rcases List.eq_nil_or_concat v with rfl | ⟨v, b, rfl⟩
    · simp only [List.append_nil] at h ⊢
      rw [← h]
      exact Balanced.append (hwrap hw) hy
    · simp only [List.concat_eq_append] at h ⊢
      rw [← List.append_assoc] at h
      obtain ⟨h1, h2⟩ := List.append_inj' h rfl
      simp only [List.cons.injEq, and_true] at h2
      subst h2
      have := hwrap (ih u v h1)
      simpa [List.append_assoc] using this

theorem Balanced.insert {x y : List Nat} (hx : Balanced x) (hy : Balanced y) :
    ∀ u v, x = u ++ v → Balanced (u ++ y ++ v) := by
  induction hx with
  | nil =>
    intro u v h
    have h := (List.append_eq_nil.mp h.symm)
    simpa [h.1, h.2] using hy
  | angle hw ih => exact Balanced.wrap_insert (fun hz => Balanced.angle hz) hw hy ih
  | brace hw ih => exact Balanced.wrap_insert (fun hz => Balanced.brace hz) hw hy ih
  | paren hw ih => exact Balanced.wrap_insert (fun hz => Balanced.paren hz) hw hy ih
  | append ha hb iha ihb =>
    rename_i a b
    intro u v h
    rcases List.append_eq_append_iff.mp h with ⟨t, rfl, rfl⟩ | ⟨t, rfl, rfl⟩
    · have := Balanced.append ha (ihb t v rfl)
      simpa [List.append_assoc] using this
    · have := Balanced.append (iha u t rfl) hb
      simpa [List.append_assoc] using this

theorem balanced_of_track (w : List Nat) :
    ∀ stack, track (some stack) w = some [] → Balanced (stack ++ w.filter isDelimiter) := by
  induction w with
  | nil =>
    intro stack h
    simp only [track, List.foldl_nil, Option.some.injEq] at h
    subst h
    exact Balanced.nil
  | cons c w ih =>
    intro stack h
    rw [track_cons] at h
    by_cases ho : isOpener c = true
    · simp only [trackStep, ho, if_true] at h
      have := ih _ h
      have hd : isDelimiter c = true := by simp [isDelimiter, ho]
      rw [List.filter_cons_of_pos hd]
      simpa [List.append_assoc] using this
    · by_cases hc : isCloser c = true
      · simp only [trackStep, ho, hc, if_true] at h
        have hd : isDelimiter c = true := by simp [isDelimiter, hc]
        rw [List.filter_cons_of_pos hd]
        cases hl : stack.getLast? with
        | none =>
          rw [hl] at h
          simp only [Bool.false_eq_true, if_false] at h
          rw [trackStep_none] at h
          cases h
        | some top =>
          rw [hl] at h
          simp only [Bool.false_eq_true, if_false] at h
          by_cases hm : closes c top = true
          · simp only [hm, if_true] at h
            have hb := ih _ h
            have hs : stack = stack.dropLast ++ [top] := by
              have := List.dropLast_append_getLast? top (by simpa using hl)
              exact this.symm
            have := Balanced.insert hb (Balanced.pair hm) _ _ rfl
            rw [hs]
            simpa [List.append_assoc] using this
          · simp only [hm, Bool.false_eq_true, if_false] at h
            rw [trackStep_none] at h
            cases h
      · simp only [trackStep, ho, hc, if_false] at h
        have hd : ¬ isDelimiter c = true := by simp [isDelimiter, ho, hc]
        rw [List.filter_cons_of_neg hd]
        simp only [Bool.false_eq_true, if_false] at h
        exact ih _ h

theorem track_iff_balanced (w : List Nat) :
    track (some []) w = some [] ↔ Balanced (w.filter isDelimiter) := by
  constructor
  · intro h
    simpa using balanced_of_track w [] h
  · intro h
    rw [← track_filter]
    exact track_balanced h []

/-! ## The validator's variables along the loop -/

theorem pda_eq_iff (s t : State) :
    s.pda = t.pda ↔
      s.stack = t.stack ∧ s.structureValid = t.structureValid ∧ s.pdaLogs = t.pdaLogs := by
  simp [State.pda]

theorem pdaTransition_trackState (s : State) (i c : Nat) :
    (pdaTransition s i c).trackState = trackStep s.trackState c := by
  unfold pdaTransition State.trackState trackStep
  cases hv : s.structureValid with
  | false => simp [hv]
  | true =>
    simp only [if_true]
    by_cases ho : isOpener c = true
    · simp [ho]
    · by_cases hc : isCloser c = true
      · simp only [ho, hc, if_true, Bool.false_eq_true, if_false]
        cases hl : s.stack.getLast? with
        | none => simp
        | some top =>
          by_cases hm : closes c top = true
          · simp [hm]
          · simp [hm]
      · simp [ho, hc, hv]

theorem runTo_trackState (content : JSString) (n : Nat) (hn : n ≤ content.length) :
    (runTo content n).trackState = track (some []) (content.take n) := by
  induction n with
  | zero => rfl
  | succ n ih =>
    have hlt : n < content.length := hn
    have hc : content[n]? = some content[n] := List.getElem?_eq_getElem hlt
    have hp := (pda_eq_iff _ _).mp (loopBody_pda content (runTo content n) n _ hc)
    have : (runTo content (n + 1)).trackState
        = (pdaTransition (runTo content n) n content[n]).trackState := by
      rw [runTo_succ]
      simp only [State.trackState, hp.1, hp.2.1]
    rw [this, pdaTransition_trackState, ih (Nat.le_of_lt hlt), List.take_succ, hc, track_append]
    rfl

theorem PdaInv.of_pda_eq {n : Nat} {s t : State} (h : t.pda = s.pda) (hs : PdaInv n s) :
    PdaInv n t := by
  obtain ⟨h1, h2, h3⟩ := (pda_eq_iff _ _).mp h
  exact ⟨by rw [h3]; exact hs.index_lt, by rw [h2, h3]; exact hs.all_valid,
    by rw [h1, h3]; exact hs.last_stack, by rw [h2, h3]; exact hs.fault⟩

theorem PdaInv.mono {n m : Nat} {s : State} (hnm : n ≤ m) (hs : PdaInv n s) : PdaInv m s :=
  ⟨fun e he => Nat.lt_of_lt_of_le (hs.index_lt e he) hnm, hs.all_valid, hs.last_stack, hs.fault⟩

theorem PdaInv.init : PdaInv 0 State.init :=
  ⟨by simp [State.init], by simp [State.init], by simp [State.init], by simp [State.init]⟩

theorem PdaInv.push {n : Nat} {s : State} (hs : PdaInv n s) (hv : s.structureValid = true)
    (e : PdaLog) (stack : List Nat) (hi : e.index = n) (he : e.valid = true)
    (hst : e.stack = stack) :
    PdaInv (n + 1) { s with stack := stack, pdaLogs := s.pdaLogs ++ [e] } := by
  refine ⟨?_, ?_, ?_, ?_⟩
  · intro e' he'
    simp only [List.mem_append, List.mem_singleton] at he'
    rcases he' with he' | rfl
    · exact Nat.lt_succ_of_lt (hs.index_lt e' he')
    · omega
  · intro _ e' he'
    simp only [List.mem_append, List.mem_singleton] at he'
    rcases he' with he' | rfl
    · exact hs.all_valid hv e' he'
    · exact he
  · simp [hst]
  · intro h
    simp only at h
    rw [hv] at h
    cases h

theorem PdaInv.anomaly {n : Nat} {s : State} (hs : PdaInv n s) (hv : s.structureValid = true)
    (e : PdaLog) (hi : e.index = n) (he : e.valid = false) (hst : e.stack = s.stack) :
    PdaInv (n + 1) { s with pdaLogs := s.pdaLogs ++ [e], structureValid := false } := by
  refine ⟨?_, ?_, ?_, ?_⟩
  · intro e' he'
    simp only [List.mem_append, List.mem_singleton] at he'
    rcases he' with he' | rfl
    · exact Nat.lt_succ_of_lt (hs.index_lt e' he')
    · omega
  · intro h
    cases h
  · simp [hst]
  · intro _
    exact ⟨s.pdaLogs, e, rfl, he, hs.all_valid hv⟩

theorem PdaInv.step {n : Nat} {s : State} (hs : PdaInv n s) (c : Nat) :
    PdaInv (n + 1) (pdaTransition s n c) := by
  unfold pdaTransition
  cases hv : s.structureValid with
  | false =>
    simp only [Bool.false_eq_true, if_false]
    exact hs.mono (Nat.le_succ n)
  | true =>
    simp only [if_true]
    split
    · have := hs.push hv ⟨n, [c], pushAction c, s.stack ++ [c], true⟩ _ rfl rfl rfl
      simpa [hv] using this
    · split
      · split
        · have := hs.anomaly hv ⟨n, [c], unexpectedClosingAction c, s.stack, false⟩ rfl rfl rfl
          simpa [hv] using this
        · split
          · rename_i top _ _
            have := hs.push hv ⟨n, [c], popAction top, s.stack.dropLast, true⟩ _ rfl rfl rfl
            simpa [hv] using this
          · rename_i top _ _
            have := hs.anomaly hv ⟨n, [c], mismatchAction top c, s.stack, false⟩ rfl rfl rfl
            simpa [hv] using this
      · exact hs.mono (Nat.le_succ n)

theorem runTo_inv (content : JSString) (n : Nat) (hn : n ≤ content.length) :
    PdaInv n (runTo content n) := by
  induction n with
  | zero => exact PdaInv.init
  | succ n ih =>
    have hlt : n < content.length := hn
    have hc : content[n]? = some content[n] := List.getElem?_eq_getElem hlt
    rw [runTo_succ]
    exact PdaInv.of_pda_eq (loopBody_pda content _ n _ hc) ((ih (Nat.le_of_lt hlt)).step _)

/-! ## The scanner's variables along the loop -/

theorem pdaTransition_dfa (s : State) (i c : Nat) :
    (pdaTransition s i c).dfaLogs = s.dfaLogs ∧
      (pdaTransition s i c).malwareFound = s.malwareFound := by
  unfold pdaTransition
  repeat (first | split | exact ⟨rfl, rfl⟩)

theorem dfaScan_flag (content : JSString) (s : State) (i : Nat)
    (h : s.malwareFound = true ↔ s.dfaLogs ≠ []) :
    ((dfaScan content s i).malwareFound = true ↔ (dfaScan content s i).dfaLogs ≠ []) := by
  simp only [dfaScan]
  split
  · simp
  · exact h

theorem runTo_flag (content : JSString) (n : Nat) :
    ((runTo content n).malwareFound = true ↔ (runTo content n).dfaLogs ≠ []) := by
  induction n with
  | zero => simp [runTo_zero, State.init]
  | succ n ih =>
    rw [runTo_succ]
    unfold loopBody
    split
    · exact ih
    · apply dfaScan_flag
      rw [(pdaTransition_dfa _ _ _).1, (pdaTransition_dfa _ _ _).2]
      exact ih

/-! ## The end-of-input check and the verdict -/

theorem truncationCheck_valid (content : JSString) (s : State) :
    (truncationCheck content s).structureValid = true ↔ s.trackState = some [] := by
  unfold truncationCheck State.trackState
  cases hv : s.structureValid with
  | false => simp [hv]
  | true =>
    simp only [if_true]
    cases hl : s.stack.getLast? with
    | none =>
      have : s.stack = [] := by simpa using hl
      simp [hv, this]
    | some top =>
      have : s.stack ≠ [] := by
        intro h
        simp [h] at hl
      simp [this]

theorem truncationCheck_dfa (content : JSString) (s : State) :
    (truncationCheck content s).dfaLogs = s.dfaLogs ∧
      (truncationCheck content s).malwareFound = s.malwareFound ∧
      (truncationCheck content s).stack = s.stack := by
  unfold truncationCheck
  repeat (first | split | exact ⟨rfl, rfl, rfl⟩)

theorem structureValid_iff_balanced (content : JSString) :
    (analyzePacket content).structureValid = true ↔ Balanced (content.filter isDelimiter) := by
  show (truncationCheck content (mainLoop content)).structureValid = true ↔ _
  rw [truncationCheck_valid, mainLoop, runTo_trackState content _ (Nat.le_refl _),
    List.take_length, track_iff_balanced]

theorem malwareFound_iff_logged (content : JSString) :
    (analyzePacket content).malwareFound = true ↔ (analyzePacket content).dfaLogs ≠ [] := by
  show (truncationCheck content (mainLoop content)).malwareFound = true ↔
    (truncationCheck content (mainLoop content)).dfaLogs ≠ []
  rw [(truncationCheck_dfa _ _).1, (truncationCheck_dfa _ _).2.1]
  exact runTo_flag content _

/-! ## String primitives -/

theorem substring_upto (content : JSString) (i : Nat) :
    substring content 0 ((i : Int) + 1) = content.take (i + 1) := by
  have h : clampIndex content.length ((i : Int) + 1) = min (i + 1) content.length := by
    unfold clampIndex
    congr 1
  have h0 : clampIndex content.length 0 = 0 := by simp [clampIndex]
  simp only [substring, h, h0, Nat.zero_min, Nat.zero_le, Nat.max_eq_right, List.drop_zero,
    Nat.sub_zero]
  rcases Nat.le_total (i + 1) content.length with hle | hle
  · rw [Nat.min_eq_left hle]
  · rw [Nat.min_eq_right hle, List.take_of_length_le hle, List.take_of_length_le (Nat.le_refl _)]

theorem substring_span (content : JSString) (i m : Nat) (h1 : m ≤ i + 1)
    (h2 : i + 1 ≤ content.length) :
    substring content ((i : Int) - (m : Int) + 1) ((i : Int) + 1) =
      (content.drop (i + 1 - m)).take m := by
  have ha : clampIndex content.length ((i : Int) - (m : Int) + 1) = i + 1 - m := by
    unfold clampIndex
    omega
  have hb : clampIndex content.length ((i : Int) + 1) = i + 1 := by
    unfold clampIndex
    omega
  simp only [substring, ha, hb]
  have h3 : min (i + 1 - m) (i + 1) = i + 1 - m := by omega
  have h4 : max (i + 1 - m) (i + 1) - (i + 1 - m) = m := by omega
  rw [h3, h4]

theorem endsWith_iff (s pattern : JSString) : endsWith s pattern = true ↔ pattern <:+ s := by
  unfold endsWith
  simp only [Bool.and_eq_true, decide_eq_true_eq, beq_iff_eq]
  constructor
  · rintro ⟨_, h⟩
    rw [← h]
    exact List.drop_suffix _ _
  · intro h
    exact ⟨h.length_le, (List.suffix_iff_eq_drop.mp h).symm⟩

/-! ## Normalisation -/

theorem map_eq : map = [([48], [111]), ([49], [108]), ([33], [105]), ([64], [97]),
    ([52], [97]), ([36], [115]), ([53], [115]), ([51], [101]), ([55], [116])] := by
  decide

theorem patterns_eq : patterns =
    [[112, 97, 121, 112, 97, 108], [115, 101, 99, 117, 114, 101], [108, 111, 103, 105, 110],
     [98, 97, 110, 107], [115, 101, 108, 101, 99, 116], [117, 110, 105, 111, 110],
     [115, 99, 114, 105, 112, 116], [97, 100, 109, 105, 110]] := by
  decide

theorem lookup_mem {α β : Type} [BEq α] (k : α) (v : β) :
    ∀ l : List (α × β), l.lookup k = some v → ∃ a, (a, v) ∈ l := by
  intro l
  induction l with
  | nil => intro h; cases h
  | cons x l ih =>
    obtain ⟨a, b⟩ := x
    intro h
    simp only [List.lookup] at h
    split at h
    · cases h
      exact ⟨a, List.mem_cons_self _ _⟩
    · obtain ⟨a', ha'⟩ := ih h
      exact ⟨a', List.mem_cons_of_mem _ ha'⟩

theorem map_values_single : ∀ kv ∈ map, kv.2.length = 1 := by
  decide

theorem lookup_two (a b : Nat) : map.lookup [a, b] = none := by
  rw [map_eq]
  simp [List.lookup]

theorem normalizeChar_shape (c : Nat) :
    normalizeChar c = [0x69, 0x307] ∨ ∃ y, normalizeChar c = [y] := by
  unfold normalizeChar toLowerCase
  by_cases h : c = 0x130
  · left
    simp only [h, if_true, lookup_two]
  · right
    simp only [h, if_false]
    cases hl : map.lookup [lowerUnit c] with
    | none => exact ⟨_, rfl⟩
    | some v =>
      obtain ⟨a, ha⟩ := lookup_mem _ _ _ hl
      have hv := map_values_single _ ha
      simp only at hv
      obtain ⟨y, rfl⟩ := List.length_eq_one.mp hv
      exact ⟨y, by simp⟩

theorem normalizeChar_ne_nil (c : Nat) : normalizeChar c ≠ [] := by
  rcases normalizeChar_shape c with h | ⟨y, h⟩ <;> simp [h]

theorem normalize_nil : normalize [] = [] := rfl

theorem normalize_append (u v : JSString) :
    normalize (u ++ v) = normalize u ++ normalize v := by
  simp [normalize]

theorem normalize_concat (u : JSString) (c : Nat) :
    normalize (u ++ [c]) = normalize u ++ normalizeChar c := by
  simp [normalize]

/-- A word free of U+0307 that ends the normalised text is the normalisation of the last
units of the raw text, one raw unit per unit of the word. -/
theorem suffix_align (p : JSString) :
    0x307 ∉ p → ∀ cs : JSString, p <:+ normalize cs →
      p.length ≤ cs.length ∧ normalize (cs.drop (cs.length - p.length)) = p := by
  induction p using List.reverseRecOn with
  | nil =>
    intro _ cs _
    simp [normalize_nil]
  | append_singleton q x ih =>
    intro hp cs
    have hx : x ≠ 0x307 := by
      intro h
      exact hp (by simp [h])
    have hq : 0x307 ∉ q := fun h => hp (by simp [h])
    rcases List.eq_nil_or_concat cs with rfl | ⟨ds, c, rfl⟩
    · intro h
      have := h.length_le
      simp [normalize_nil] at this
    · simp only [List.concat_eq_append]
      rw [normalize_concat]
      intro h
      rcases normalizeChar_shape c with hc | ⟨y, hc⟩
      · rw [hc] at h
        have h' : q ++ [x] <:+ (normalize ds ++ [0x69]) ++ [0x307] := by
          simpa [List.append_assoc] using h
        rcases List.suffix_concat_iff.mp h' with h0 | ⟨t, ht, _⟩
        · simp at h0
        · have := (List.append_inj' ht rfl).2
          simp only [List.cons.injEq, and_true] at this
          exact absurd this hx
      · rw [hc] at h
        rcases List.suffix_concat_iff.mp h with h0 | ⟨t, ht, hts⟩
        · simp at h0
        · obtain ⟨h1, h2⟩ := List.append_inj' ht rfl
          simp only [List.cons.injEq, and_true] at h2
          subst h1 h2
          obtain ⟨hlen, hnorm⟩ := ih hq ds hts
          refine ⟨by simp; omega, ?_⟩
          have e : (ds ++ [c]).length - (q ++ [x]).length = ds.length - q.length := by
            simp
          rw [e, List.drop_append_of_le_length (Nat.sub_le _ _), normalize_concat, hnorm, hc]

/-- An occurrence of a word that neither contains U+0307 nor ends in `i` inside the
normalised text ends where the normalisation of some raw prefix ends. -/
theorem infix_align (p : JSString) (hne : p ≠ []) (hp : 0x307 ∉ p)
    (hlast : p.getLast? ≠ some 0x69) :
    ∀ cs : JSString, p <:+: normalize cs →
      ∃ n, n < cs.length ∧ p <:+ normalize (cs.take (n + 1)) := by
  intro cs
  induction cs using List.reverseRecOn with
  | nil =>
    intro h
    rw [normalize_nil] at h
    exact absurd (List.infix_nil.mp h) hne
  | append_singleton ds c ih =>
    have whole : ∀ {l : JSString}, p <:+ l → l = normalize (ds ++ [c]) →
        ∃ n, n < (ds ++ [c]).length ∧ p <:+ normalize ((ds ++ [c]).take (n + 1)) := by
      intro l hl e
      refine ⟨ds.length, by simp, ?_⟩
      have : (ds ++ [c]).take (ds.length + 1) = ds ++ [c] := by
        apply List.take_of_length_le
        simp
      rw [this, ← e]
      exact hl
    have inner : p <:+: normalize ds →
        ∃ n, n < (ds ++ [c]).length ∧ p <:+ normalize ((ds ++ [c]).take (n + 1)) := by
      intro h
      obtain ⟨n, hn, hs⟩ := ih h
      refine ⟨n, by simp; omega, ?_⟩
      rw [List.take_append_of_le_length (by omega)]
      exact hs
    intro h
    rw [normalize_concat] at h
    rcases normalizeChar_shape c with hc | ⟨y, hc⟩
    · rw [hc] at h
      have h' : p <:+: (normalize ds ++ [0x69]) ++ [0x307] := by
        simpa [List.append_assoc] using h
      rcases List.infix_concat_iff.mp h' with h1 | h1
      · rcases List.suffix_concat_iff.mp h1 with h0 | ⟨t, ht, _⟩
        · exact absurd h0 hne
        · exact absurd (by simp [ht]) hp
      · rcases List.infix_concat_iff.mp h1 with h2 | h2
        · rcases List.suffix_concat_iff.mp h2 with h0 | ⟨t, ht, _⟩
          · exact absurd h0 hne
          · exact absurd (by simp [ht]) hlast
        · exact inner h2
    · rw [hc] at h
      rcases List.infix_concat_iff.mp h with h1 | h1
      · exact whole h1 (by rw [normalize_concat, hc])
      · exact inner h1

theorem patterns_aligned : ∀ p ∈ patterns, p ≠ [] ∧ 0x307 ∉ p ∧ p.getLast? ≠ some 0x69 := by
  decide

/-! ## The scanner's log along the loop -/

theorem normalizedPrefix_eq (content : JSString) (i : Nat) :
    normalizedPrefix content i = normalize (content.take (i + 1)) := by
  unfold normalizedPrefix
  rw [substring_upto]

theorem dfaScan_eq (content : JSString) (s : State) (i : Nat) :
    (dfaScan content s i).dfaLogs = s.dfaLogs ++ (scanAt content i).toList := by
  simp only [dfaScan, scanAt, matchAt, normalizedPrefix, entryAt]
  split <;> rename_i h <;> simp [h, entryAt]

theorem runTo_dfaLogs (content : JSString) (n : Nat) (hn : n ≤ content.length) :
    (runTo content n).dfaLogs = (List.range n).filterMap (scanAt content) := by
  induction n with
  | zero => rfl
  | succ n ih =>
    have hlt : n < content.length := hn
    have hc : content[n]? = some content[n] := List.getElem?_eq_getElem hlt
    rw [runTo_succ, List.range_succ, List.filterMap_append, ← ih (Nat.le_of_lt hlt)]
    simp only [loopBody, hc]
    rw [dfaScan_eq, (pdaTransition_dfa _ _ _).1]
    cases h : scanAt content n <;> simp [h]

theorem dfaLogs_eq (content : JSString) :
    (analyzePacket content).dfaLogs = (List.range content.length).filterMap (scanAt content) := by
  show (truncationCheck content (mainLoop content)).dfaLogs = _
  rw [(truncationCheck_dfa _ _).1]
  exact runTo_dfaLogs content _ (Nat.le_refl _)

theorem matchAt_some_iff (content : JSString) (i : Nat) (p : JSString) :
    matchAt content i = some p ↔
      p <:+ normalize (content.take (i + 1)) ∧
      ∃ k : Nat, patterns[k]? = some p ∧
        ∀ j : Nat, j < k → ∀ q, patterns[j]? = some q →
          ¬ q <:+ normalize (content.take (i + 1)) := by
  unfold matchAt
  rw [List.find?_eq_some, normalizedPrefix_eq, endsWith_iff]
  constructor
  · rintro ⟨hp, as, bs, hpat, has⟩
    refine ⟨hp, as.length, ?_, ?_⟩
    · rw [hpat, List.getElem?_append_right (Nat.le_refl _)]
      simp
    intro j hj q hq
    rw [hpat, List.getElem?_append_left hj] at hq
    have hmem : q ∈ as := List.getElem?_mem hq
    have := has q hmem
    rw [← endsWith_iff]
    simpa using this
  · rintro ⟨hp, k, hk, hfirst⟩
    refine ⟨hp, patterns.take k, patterns.drop (k + 1), ?_, ?_⟩
    · have hlt : k < patterns.length := by
        rcases Nat.lt_or_ge k patterns.length with h | h
        · exact h
        · rw [List.getElem?_eq_none h] at hk
          cases hk
      have hget : patterns[k] = p := by
        rw [List.getElem?_eq_getElem hlt] at hk
        exact Option.some.inj hk
      conv_lhs => rw [← List.take_append_drop k patterns]
      rw [List.drop_eq_getElem_cons hlt, hget]
    · intro a ha
      obtain ⟨j, hj, hja⟩ := List.getElem_of_mem ha
      have hjk : j < k := by
        have := hj
        simp only [List.length_take] at this
        omega
      have hq : patterns[j]? = some a := by
        rw [← hja, List.getElem_take]
        exact List.getElem?_eq_getElem _
      have := hfirst j hjk a hq
      rw [← endsWith_iff] at this
      simpa using this

theorem matchAt_isSome_iff (content : JSString) (i : Nat) :
    (∃ p, matchAt content i = some p) ↔
      ∃ p ∈ patterns, p <:+ normalize (content.take (i + 1)) := by
  unfold matchAt
  constructor
  · rintro ⟨p, hp⟩
    have h1 := List.find?_some hp
    have h2 := List.mem_of_find?_eq_some hp
    rw [normalizedPrefix_eq, endsWith_iff] at h1
    exact ⟨p, h2, h1⟩
  · rintro ⟨p, hp, hs⟩
    cases h : patterns.find? (fun pattern => endsWith (normalizedPrefix content i) pattern) with
    | some q => exact ⟨q, rfl⟩
    | none =>
      rw [List.find?_eq_none] at h
      have := h p hp
      rw [normalizedPrefix_eq, endsWith_iff] at this
      exact absurd hs this

theorem mem_dfaLogs_iff (content : JSString) (e : DfaLog) :
    e ∈ (analyzePacket content).dfaLogs ↔
      ∃ i, i < content.length ∧ ∃ p, matchAt content i = some p ∧ e = entryAt content i p := by
  rw [dfaLogs_eq, List.mem_filterMap]
  simp only [List.mem_range, scanAt, Option.map_eq_some']
  constructor
  · rintro ⟨i, hi, p, hp, rfl⟩
    exact ⟨i, hi, p, hp, rfl⟩
  · rintro ⟨i, hi, p, hp, rfl⟩
    exact ⟨i, hi, p, hp, rfl⟩

theorem dfaLogs_sorted (content : JSString) :
    ((analyzePacket content).dfaLogs.map DfaLog.index).Pairwise (· < ·) := by
  rw [dfaLogs_eq, List.pairwise_map, List.pairwise_filterMap]
  refine (List.pairwise_lt_range _).imp ?_
  intro a b hab e he e' he'
  simp only [scanAt, Option.mem_def, Option.map_eq_some'] at he he'
  obtain ⟨_, _, rfl⟩ := he
  obtain ⟨_, _, rfl⟩ := he'
  exact hab

theorem mem_patterns_of_matchAt {content : JSString} {i : Nat} {p : JSString}
    (h : matchAt content i = some p) : p ∈ patterns :=
  List.mem_of_find?_eq_some h

theorem logged_iff_occurs (content : JSString) :
    (analyzePacket content).dfaLogs ≠ [] ↔ ∃ p ∈ patterns, p <:+: normalize content := by
  constructor
  · intro h
    obtain ⟨e, he⟩ := List.exists_mem_of_ne_nil _ h
    obtain ⟨i, _, p, hp, _⟩ := (mem_dfaLogs_iff content e).mp he
    refine ⟨p, mem_patterns_of_matchAt hp, ?_⟩
    have hs := ((matchAt_some_iff content i p).mp hp).1
    have hpre : normalize (content.take (i + 1)) <+: normalize content := by
      refine ⟨normalize (content.drop (i + 1)), ?_⟩
      rw [← normalize_append, List.take_append_drop]
    exact hs.isInfix.trans hpre.isInfix
  · rintro ⟨p, hp, hinf⟩
    obtain ⟨hne, h307, hlast⟩ := patterns_aligned p hp
    obtain ⟨n, hn, hs⟩ := infix_align p hne h307 hlast content hinf
    obtain ⟨q, hq⟩ := (matchAt_isSome_iff content n).mpr ⟨p, hp, hs⟩
    intro hnil
    have : entryAt content n q ∈ (analyzePacket content).dfaLogs :=
      (mem_dfaLogs_iff content _).mpr ⟨n, hn, q, hq, rfl⟩
    rw [hnil] at this
    cases this

theorem entryAt_facts (content : JSString) (i : Nat) (p : JSString) (hi : i < content.length)
    (hp : matchAt content i = some p) :
    p.length ≤ i + 1 ∧
    (entryAt content i p).snippet = (content.drop (i + 1 - p.length)).take p.length ∧
    (entryAt content i p).snippet.length = p.length ∧
    normalize (entryAt content i p).snippet = p := by
  have hs := ((matchAt_some_iff content i p).mp hp).1
  have h307 := (patterns_aligned p (mem_patterns_of_matchAt hp)).2.1
  obtain ⟨hlen, hnorm⟩ := suffix_align p h307 _ hs
  have htl : (content.take (i + 1)).length = i + 1 := by
    rw [List.length_take]
    omega
  rw [htl] at hlen hnorm
  have hsn : (entryAt content i p).snippet = (content.drop (i + 1 - p.length)).take p.length :=
    substring_span content i p.length hlen hi
  have hdt : (content.take (i + 1)).drop (i + 1 - p.length)
      = (content.drop (i + 1 - p.length)).take p.length := by
    rw [List.drop_take]
    congr 1
    omega
  refine ⟨hlen, hsn, ?_, ?_⟩
  · rw [hsn, List.length_take, List.length_drop]
    omega
  · rw [hsn, ← hdt]
    exact hnorm

theorem lookup_other (l : JSString)
    (h : l ∉ [utf16 "0", utf16 "1", utf16 "!", utf16 "@", utf16 "4", utf16 "$", utf16 "5",
      utf16 "3", utf16 "7"]) : map.lookup l = none := by
  have e : [utf16 "0", utf16 "1", utf16 "!", utf16 "@", utf16 "4", utf16 "$", utf16 "5",
      utf16 "3", utf16 "7"] = [[48], [49], [33], [64], [52], [36], [53], [51], [55]] := by
    decide
  rw [e] at h
  simp only [List.mem_cons, List.mem_singleton, List.not_mem_nil, or_false, not_or] at h
  obtain ⟨h1, h2, h3, h4, h5, h6, h7, h8, h9⟩ := h
  have b : ∀ k : JSString, ¬ l = k → (l == k) = false := fun k hk => by simpa using hk
  rw [map_eq]
  simp only [List.lookup, b _ h1, b _ h2, b _ h3, b _ h4, b _ h5, b _ h6, b _ h7, b _ h8,
    b _ h9]

/-! ## Faults and the end of input -/

theorem pdaTransition_other (s : State) (i d : Nat) (h : isDelimiter d = false) :
    pdaTransition s i d = s := by
  simp only [isDelimiter, Bool.or_eq_false_iff] at h
  simp [pdaTransition, h.1, h.2]

theorem isOpener_of_isCloser {c : Nat} (h : isCloser c = true) : isOpener c = false := by
  simp only [isCloser, Bool.or_eq_true, beq_iff_eq] at h
  rcases h with (rfl | rfl) | rfl <;> rfl

theorem pdaTransition_unexpected (s : State) (i c : Nat) (hv : s.structureValid = true)
    (hc : isCloser c = true) (hs : s.stack = []) :
    (pdaTransition s i c).pda =
      ([], false, s.pdaLogs ++ [⟨i, [c], unexpectedClosingAction c, [], false⟩]) := by
  simp [pdaTransition, hv, hc, isOpener_of_isCloser hc, hs, State.pda]

theorem pdaTransition_mismatch (s : State) (i c top : Nat) (hv : s.structureValid = true)
    (hc : isCloser c = true) (hs : s.stack.getLast? = some top) (hm : closes c top = false) :
    (pdaTransition s i c).pda =
      (s.stack, false, s.pdaLogs ++ [⟨i, [c], mismatchAction top c, s.stack, false⟩]) := by
  simp [pdaTransition, hv, hc, isOpener_of_isCloser hc, hs, hm, State.pda]

theorem runTo_pda_of_no_delimiter (content : JSString) (k : Nat)
    (h : ∀ j : Nat, j < k → ∀ d, content[j]? = some d → isDelimiter d = false) :
    ∀ n, n ≤ k → n ≤ content.length → (runTo content n).pda = State.init.pda := by
  intro n
  induction n with
  | zero => intro _ _; rfl
  | succ n ih =>
    intro hnk hn
    have hlt : n < content.length := hn
    have hc : content[n]? = some content[n] := List.getElem?_eq_getElem hlt
    rw [runTo_succ, loopBody_pda _ _ _ _ hc, pdaTransition_other _ _ _ (h n hnk _ hc)]
    exact ih (Nat.le_of_succ_le hnk) (Nat.le_of_lt hlt)

theorem truncationCheck_invalid (content : JSString) (s : State)
    (h : s.structureValid = false) : truncationCheck content s = s := by
  simp [truncationCheck, h]

theorem truncationCheck_empty (content : JSString) (s : State) (h : s.stack = []) :
    truncationCheck content s = s := by
  simp [truncationCheck, h]

theorem truncationCheck_open (content : JSString) (s : State) (top : Nat)
    (hv : s.structureValid = true) (h : s.stack.getLast? = some top) :
    (truncationCheck content s).pda =
      (s.stack, false, s.pdaLogs ++
        [⟨content.length, utf16 "EOF", truncatedAction top, s.stack, false⟩]) := by
  simp [truncationCheck, hv, h, State.pda]

/-- The three validator fields of the result, read off the state after the end-of-input
check. -/
theorem analyzePacket_pda (content : JSString) :
    ((analyzePacket content).finalStack, (analyzePacket content).structureValid,
      (analyzePacket content).pdaLogs) = (truncationCheck content (mainLoop content)).pda :=
  rfl

theorem analyzePacket_pda_of_fault (content : JSString) (m : Nat) (hm : m ≤ content.length)
    (h : (runTo content m).structureValid = false) :
    (analyzePacket content).finalStack = (runTo content m).stack ∧
    (analyzePacket content).structureValid = false ∧
    (analyzePacket content).pdaLogs = (runTo content m).pdaLogs := by
  have hf := runTo_pda_frozen content m content.length hm h
  obtain ⟨h1, h2, h3⟩ := (pda_eq_iff _ _).mp hf
  have hv : (mainLoop content).structureValid = false := by
    rw [mainLoop, h2, h]
  have := analyzePacket_pda content
  rw [truncationCheck_invalid _ _ hv] at this
  simp only [State.pda, Prod.mk.injEq] at this
  obtain ⟨e1, e2, e3⟩ := this
  exact ⟨by rw [e1]; exact h1, by rw [e2]; exact hv, by rw [e3]; exact h3⟩

theorem blocked_of_invalid (content : JSString)
    (h : (analyzePacket content).structureValid = false) :
    (analyzePacket content).decision = utf16 "BLOCKED" ∧
      (analyzePacket content).reason = utf16 "Malformed/Injection" := by
  have hd : (analyzePacket content).decision
      = (verdict (analyzePacket content).structureValid (analyzePacket content).malwareFound).1 :=
    rfl
  have hr : (analyzePacket content).reason
      = (verdict (analyzePacket content).structureValid (analyzePacket content).malwareFound).2 :=
    rfl
  rw [hd, hr, h]
  exact ⟨rfl, rfl⟩

theorem allowed_of_clean (content : JSString)
    (h : (analyzePacket content).structureValid = true)
    (hm : (analyzePacket content).malwareFound = false) :
    (analyzePacket content).decision = utf16 "ALLOWED" ∧
      (analyzePacket content).reason = utf16 "Clean" := by
  have hd : (analyzePacket content).decision
      = (verdict (analyzePacket content).structureValid (analyzePacket content).malwareFound).1 :=
    rfl
  have hr : (analyzePacket content).reason
      = (verdict (analyzePacket content).structureValid (analyzePacket content).malwareFound).2 :=
    rfl
  rw [hd, hr, h, hm]
  exact ⟨rfl, rfl⟩

theorem getLast?_of_ne_nil {α : Type} (l : List α) (h : l ≠ []) : ∃ a, l.getLast? = some a := by
  cases hl : l.getLast? with
  | some a => exact ⟨a, rfl⟩
  | none => exact absurd (List.getLast?_eq_none_iff.mp hl) h

/-! ## The stack holds the unclosed openers -/

theorem trackStep_openers (st st' : List Nat) (c : Nat)
    (h : trackStep (some st) c = some st') (hst : ∀ o ∈ st, isOpener o = true) :
    ∀ o ∈ st', isOpener o = true := by
  unfold trackStep at h
  simp only at h
  split at h
  · rename_i ho
    cases h
    intro o hmem
    rcases List.mem_append.mp hmem with h1 | h1
    · exact hst o h1
    · rw [List.mem_singleton.mp h1]
      exact ho
  · split at h
    · split at h
      · cases h
      · split at h
        · cases h
          intro o hmem
          exact hst o (List.mem_of_mem_dropLast hmem)
        · cases h
    · cases h
      exact hst

theorem track_openers (w : List Nat) :
    ∀ st st' : List Nat, track (some st) w = some st' → (∀ o ∈ st, isOpener o = true) →
      ∀ o ∈ st', isOpener o = true := by
  induction w with
  | nil =>
    intro st st' h hst
    cases h
    exact hst
  | cons c w ih =>
    intro st st' h hst
    rw [track_cons] at h
    cases hs : trackStep (some st) c with
    | none =>
      rw [hs, trackStep_none] at h
      cases h
    | some st1 =>
      rw [hs] at h
      exact ih st1 st' h (trackStep_openers st st1 c hs hst)

theorem closing_concat (st : List Nat) (o : Nat) :
    closing (st ++ [o]) = closerOf o :: closing st := by
  simp [closing]

theorem closerOf_facts {o : Nat} (h : isOpener o = true) :
    isCloser (closerOf o) = true ∧ isOpener (closerOf o) = false ∧
      closes (closerOf o) o = true := by
  simp only [isOpener, Bool.or_eq_true, beq_iff_eq] at h
  rcases h with (rfl | rfl) | rfl <;> exact ⟨rfl, rfl, rfl⟩

theorem track_closing (st : List Nat) :
    (∀ o ∈ st, isOpener o = true) → track (some st) (closing st) = some [] := by
  induction st using List.reverseRecOn with
  | nil => intro _; rfl
  | append_singleton st o ih =>
    intro h
    obtain ⟨h1, h2, h3⟩ := closerOf_facts (h o (by simp))
    rw [closing_concat, track_cons]
    have : trackStep (some (st ++ [o])) (closerOf o) = some st := by
      simp [trackStep, h1, h2, h3]
    rw [this]
    exact ih (fun o' ho' => h o' (by simp [ho']))

theorem filter_closing (st : List Nat) (h : ∀ o ∈ st, isOpener o = true) :
    (closing st).filter isDelimiter = closing st := by
  rw [List.filter_eq_self]
  intro c hc
  simp only [closing, List.mem_map, List.mem_reverse] at hc
  obtain ⟨o, ho, rfl⟩ := hc
  simp [isDelimiter, (closerOf_facts (h o ho)).1]

/-- While the validator is valid its stack consists of openers, and closing them,
innermost first, balances the delimiters read so far. -/
theorem stack_unclosed (content : JSString) (hv : (mainLoop content).structureValid = true) :
    (∀ o ∈ (mainLoop content).stack, isOpener o = true) ∧
    Balanced (content.filter isDelimiter ++ closing (mainLoop content).stack) := by
  have ht : track (some []) content = some (mainLoop content).stack := by
    have := runTo_trackState content content.length (Nat.le_refl _)
    rw [List.take_length] at this
    rw [← this]
    simp [State.trackState, mainLoop, show (runTo content content.length).structureValid = true
      from hv]
  have hop := track_openers content [] _ ht (by simp)
  refine ⟨hop, ?_⟩
  have := balanced_of_track (content ++ closing (mainLoop content).stack) []
    (by rw [track_append, ht]; exact track_closing _ hop)
  simpa [List.filter_append, filter_closing _ hop] using this

/-! ## Every completed term is logged -/

theorem patterns_no_suffix : ∀ p ∈ patterns, ∀ q ∈ patterns, p <:+ q → p = q := by
  decide

theorem unique_suffix {p q s : JSString} (hp : p ∈ patterns) (hq : q ∈ patterns)
    (h1 : p <:+ s) (h2 : q <:+ s) : p = q := by
  rcases List.suffix_or_suffix_of_suffix h1 h2 with h | h
  · exact patterns_no_suffix p hp q hq h
  · exact (patterns_no_suffix q hq p hp h).symm

theorem matchAt_of_suffix (content : JSString) (i : Nat) (p : JSString) (hp : p ∈ patterns)
    (hs : p <:+ normalize (content.take (i + 1))) : matchAt content i = some p := by
  obtain ⟨q, hq⟩ := (matchAt_isSome_iff content i).mpr ⟨p, hp, hs⟩
  have hqs := ((matchAt_some_iff content i q).mp hq).1
  rw [hq, unique_suffix (mem_patterns_of_matchAt hq) hp hqs hs]

theorem logged_at (content : JSString) (i : Nat) (p : JSString) (hi : i < content.length)
    (hp : p ∈ patterns) (hs : p <:+ normalize (content.take (i + 1))) :
    entryAt content i p ∈ (analyzePacket content).dfaLogs :=
  (mem_dfaLogs_iff content _).mpr ⟨i, hi, p, matchAt_of_suffix content i p hp hs, rfl⟩

/-- An occurrence of a non-empty word that does not end in `i` inside the normalised text
ends exactly where the normalisation of some raw prefix ends. -/
theorem occurrence_align (p : JSString) (hne : p ≠ [])
    (hlast : p.getLast? ≠ some 0x69) :
    ∀ (cs a b : JSString), normalize cs = a ++ p ++ b →
      ∃ n, n < cs.length ∧ normalize (cs.take (n + 1)) = a ++ p := by
  intro cs
  induction cs using List.reverseRecOn with
  | nil =>
    intro a b h
    rw [normalize_nil] at h
    have := congrArg List.length h
    simp only [List.length_nil, List.length_append] at this
    have hl : 0 < p.length := List.length_pos.mpr hne
    omega
  | append_singleton ds c ih =>
    intro a b h
    have inner : ∀ b', normalize ds = a ++ p ++ b' →
        ∃ n, n < (ds ++ [c]).length ∧ normalize ((ds ++ [c]).take (n + 1)) = a ++ p := by
      intro b' hb
      obtain ⟨n, hn, hs⟩ := ih a b' hb
      refine ⟨n, by simp; omega, ?_⟩
      rw [List.take_append_of_le_length (by omega)]
      exact hs
    rcases List.eq_nil_or_concat b with rfl | ⟨b1, z, rfl⟩
    · refine ⟨ds.length, by simp, ?_⟩
      have : (ds ++ [c]).take (ds.length + 1) = ds ++ [c] := by
        apply List.take_of_length_le
        simp
      rw [this, h, List.append_nil]
    · simp only [List.concat_eq_append] at h
      rw [normalize_concat] at h
      rcases normalizeChar_shape c with hc | ⟨y, hc⟩
      · rw [hc] at h
        have h' : (normalize ds ++ [0x69]) ++ [0x307] = (a ++ p ++ b1) ++ [z] := by
          simpa [List.append_assoc] using h
        have h1 := (List.append_inj' h' rfl).1
        rcases List.eq_nil_or_concat b1 with rfl | ⟨b2, z2, rfl⟩
        · exfalso
          apply hlast
          have : (a ++ p).getLast? = some 0x69 := by
            rw [List.append_nil] at h1
            rw [← h1, List.getLast?_concat]
          rw [List.getLast?_append] at this
          cases hpl : p.getLast? with
          | none => exact absurd (List.getLast?_eq_none_iff.mp hpl) hne
          | some x =>
            rw [hpl] at this
            simpa using this
        · simp only [List.concat_eq_append] at h1
          have h2 : normalize ds ++ [0x69] = (a ++ p ++ b2) ++ [z2] := by
            simpa [List.append_assoc] using h1
          exact inner b2 (List.append_inj' h2 rfl).1
      · rw [hc] at h
        have h' : normalize ds ++ [y] = (a ++ p ++ b1) ++ [z] := by
          simpa [List.append_assoc] using h
        exact inner b1 (List.append_inj' h' rfl).1

/-- In a list whose keys increase strictly, the member with the smaller key comes first. -/
theorem precedes_of_sorted {α : Type} (key : α → Nat) (l : List α)
    (hs : (l.map key).Pairwise (· < ·)) (x y : α) (hx : x ∈ l) (hy : y ∈ l)
    (hxy : key x < key y) : ∃ l1 l2 l3, l = l1 ++ x :: (l2 ++ y :: l3) := by
  obtain ⟨l1, r, rfl⟩ := List.append_of_mem hx
  rw [List.pairwise_map, List.pairwise_append] at hs
  obtain ⟨_, hr, hcross⟩ := hs
  rcases List.mem_append.mp hy with h | h
  · have := hcross y h x (List.mem_cons_self _ _)
    omega
  · rcases List.mem_cons.mp h with h | h
    · rw [h] at hxy
      omega
    · obtain ⟨l2, l3, rfl⟩ := List.append_of_mem h
      exact ⟨l1, l2, l3, rfl⟩

theorem blocked_of_match (content : JSString)
    (h : (analyzePacket content).structureValid = true)
    (hm : (analyzePacket content).malwareFound = true) :
    (analyzePacket content).decision = utf16 "BLOCKED" ∧
      (analyzePacket content).reason = utf16 "Phishing Signature" := by
  have hd : (analyzePacket content).decision
      = (verdict (analyzePacket content).structureValid (analyzePacket content).malwareFound).1 :=
    rfl
  have hr : (analyzePacket content).reason
      = (verdict (analyzePacket content).structureValid (analyzePacket content).malwareFound).2 :=
    rfl
  rw [hd, hr, h, hm]
  exact ⟨rfl, rfl⟩

/-- The validator fields of the result when the delimiters are balanced. -/
theorem pda_of_balanced (content : JSString) (hb : Balanced (content.filter isDelimiter)) :
    (analyzePacket content).structureValid = true ∧
    (∀ e ∈ (analyzePacket content).pdaLogs, e.valid = true) ∧
    (analyzePacket content).finalStack = [] ∧
    (∀ e, (analyzePacket content).pdaLogs.getLast? = some e → e.stack = []) := by
  have hvalid := (structureValid_iff_balanced content).mpr hb
  have hts : (mainLoop content).trackState = some [] :=
    (truncationCheck_valid content _).mp hvalid
  have hv : (mainLoop content).structureValid = true := by
    cases h : (mainLoop content).structureValid with
    | true => rfl
    | false => simp [State.trackState, h] at hts
  have hst : (mainLoop content).stack = [] := by
    simpa [State.trackState, hv] using hts
  have hpda := analyzePacket_pda content
  rw [truncationCheck_empty _ _ hst] at hpda
  simp only [State.pda, Prod.mk.injEq] at hpda
  obtain ⟨e1, _, e3⟩ := hpda
  have inv := runTo_inv content content.length (Nat.le_refl _)
  refine ⟨hvalid, ?_, by rw [e1]; exact hst, ?_⟩
  · rw [e3]
    exact inv.all_valid hv
  · intro e he
    rw [e3] at he
    have := inv.last_stack
    rw [show (runTo content content.length) = mainLoop content from rfl, he, hst] at this
    simpa using this

/-! ## Extending the payload -/

theorem substring_append_left (u v : JSString) (a b : Int) (hab : a ≤ b)
    (hb : b ≤ (u.length : Int)) : substring (u ++ v) a b = substring u a b := by
  have h1 : clampIndex (u ++ v).length a = a.toNat := by
    simp only [clampIndex, List.length_append]
    omega
  have h2 : clampIndex (u ++ v).length b = b.toNat := by
    simp only [clampIndex, List.length_append]
    omega
  have h3 : clampIndex u.length a = a.toNat := by
    simp only [clampIndex]
    omega
  have h4 : clampIndex u.length b = b.toNat := by
    simp only [clampIndex]
    omega
  have h5 : min a.toNat b.toNat = a.toNat := by omega
  have h6 : max a.toNat b.toNat = b.toNat := by omega
  simp only [substring, h1, h2, h3, h4, h5, h6]
  rw [List.drop_append_of_le_length (by omega), List.take_append_of_le_length]
  rw [List.length_drop]
  omega

theorem scanAt_append (u v : JSString) (i : Nat) (hi : i < u.length) :
    scanAt (u ++ v) i = scanAt u i := by
  have hm : matchAt (u ++ v) i = matchAt u i := by
    unfold matchAt
    rw [normalizedPrefix_eq, normalizedPrefix_eq, List.take_append_of_le_length (by omega)]
  unfold scanAt
  rw [hm]
  cases matchAt u i with
  | none => rfl
  | some p =>
    simp only [Option.map_some', Option.some.injEq]
    have : substring (u ++ v) ((i : Int) - (p.length : Int) + 1) ((i : Int) + 1)
        = substring u ((i : Int) - (p.length : Int) + 1) ((i : Int) + 1) :=
      substring_append_left u v _ _ (by omega) (by omega)
    simp only [entryAt, this]

theorem dfaLogs_append (u v : JSString) :
    (analyzePacket (u ++ v)).dfaLogs = (analyzePacket u).dfaLogs ++
      ((List.range v.length).map (u.length + ·)).filterMap (scanAt (u ++ v)) := by
  rw [dfaLogs_eq, dfaLogs_eq, List.length_append, List.range_add, List.filterMap_append]
  congr 1
  apply List.filterMap_congr
  intro i hi
  exact scanAt_append u v i (List.mem_range.mp hi)

/-! ## Other scanning policies -/

theorem find?_of_same_members (table : List JSString) (s : JSString)
    (h : ∀ x, x ∈ table ↔ x ∈ patterns) :
    table.find? (fun pattern => endsWith s pattern) =
      patterns.find? (fun pattern => endsWith s pattern) := by
  cases h1 : table.find? (fun pattern => endsWith s pattern) with
  | none =>
    cases h2 : patterns.find? (fun pattern => endsWith s pattern) with
    | none => rfl
    | some p =>
      have := List.find?_eq_none.mp h1 p ((h p).mpr (List.mem_of_find?_eq_some h2))
      exact absurd (List.find?_some h2) this
  | some q =>
    cases h2 : patterns.find? (fun pattern => endsWith s pattern) with
    | none =>
      have := List.find?_eq_none.mp h2 q ((h q).mp (List.mem_of_find?_eq_some h1))
      exact absurd (List.find?_some h1) this
    | some p =>
      have hq := (endsWith_iff _ _).mp (List.find?_some h1)
      have hp := (endsWith_iff _ _).mp (List.find?_some h2)
      rw [unique_suffix ((h q).mp (List.mem_of_find?_eq_some h1))
        (List.mem_of_find?_eq_some h2) hq hp]

theorem scanWith_eq (table : List JSString) (content : JSString)
    (h : ∀ x, x ∈ table ↔ x ∈ patterns) :
    scanWith table content = (analyzePacket content).dfaLogs := by
  rw [dfaLogs_eq]
  unfold scanWith
  apply List.filterMap_congr
  intro i _
  rw [find?_of_same_members table _ h]
  rfl

theorem argmax_eq_find? (s : JSString) :
    List.argmax List.length (patterns.filter (fun pattern => endsWith s pattern)) =
      patterns.find? (fun pattern => endsWith s pattern) := by
  cases h2 : patterns.find? (fun pattern => endsWith s pattern) with
  | none =>
    rw [List.argmax_eq_none, List.filter_eq_nil_iff]
    intro p hp
    exact List.find?_eq_none.mp h2 p hp
  | some p =>
    have hpm : p ∈ patterns.filter (fun pattern => endsWith s pattern) :=
      List.mem_filter.mpr ⟨List.mem_of_find?_eq_some h2, List.find?_some h2⟩
    cases h1 : List.argmax List.length
        (patterns.filter (fun pattern => endsWith s pattern)) with
    | none =>
      rw [List.argmax_eq_none] at h1
      rw [h1] at hpm
      cases hpm
    | some m =>
      have hm := List.mem_filter.mp (List.argmax_mem h1)
      rw [unique_suffix hm.1 (List.mem_of_find?_eq_some h2) ((endsWith_iff _ _).mp hm.2)
        ((endsWith_iff _ _).mp (List.find?_some h2))]

theorem scanLongest_eq (content : JSString) :
    scanLongest content = (analyzePacket content).dfaLogs := by
  rw [dfaLogs_eq]
  unfold scanLongest
  apply List.filterMap_congr
  intro i _
  rw [argmax_eq_find?]
  rfl

/-! ## Incremental normalisation -/

theorem normalizeChar_length (c : Nat) :
    (normalizeChar c).length = 1 + (if c = 0x130 then 1 else 0) := by
  unfold normalizeChar toLowerCase
  by_cases h : c = 0x130
  · simp only [h, if_true, lookup_two]
    rfl
  · simp only [h, if_false]
    cases hl : map.lookup [lowerUnit c] with
    | none => rfl
    | some v =>
      obtain ⟨a, ha⟩ := lookup_mem _ _ _ hl
      have hv := map_values_single _ ha
      simp only at hv
      obtain ⟨y, rfl⟩ := List.length_eq_one.mp hv
      simp

theorem normalize_cons (c : Nat) (cs : JSString) :
    normalize (c :: cs) = normalizeChar c ++ normalize cs := by
  simp [normalize]

theorem normalize_length (cs : JSString) :
    (normalize cs).length = cs.length + cs.count 0x130 := by
  induction cs with
  | nil => rfl
  | cons c cs ih =>
    rw [normalize_cons, List.length_append, normalizeChar_length, ih, List.count_cons]
    simp only [List.length_cons, beq_iff_eq]
    by_cases h : c = 0x130
    · simp [h]
      omega
    · simp [h]
      omega

theorem normalizedPrefix_succ (content : JSString) (i c : Nat)
    (h : content[i]? = some c) :
    normalizedPrefix content i = normalize (content.take i) ++ normalizeChar c := by
  rw [normalizedPrefix_eq, List.take_succ, h, normalize_append]
  simp [normalize]

theorem incrementalFrom_eq (content : JSString) :
    ∀ (rest pre : JSString), content = pre ++ rest →
      incrementalFrom content (normalize pre) pre.length rest =
        (List.range' pre.length rest.length).filterMap (scanAt content) := by
  intro rest
  induction rest with
  | nil => intro pre _; rfl
  | cons c rest ih =>
    intro pre h
    have hc : content[pre.length]? = some c := by
      rw [h, List.getElem?_append_right (Nat.le_refl _)]
      simp
    have hnp : normalize pre ++ normalizeChar c = normalizedPrefix content pre.length := by
      rw [normalizedPrefix_succ content _ c hc, h, List.take_left']
      rfl
    have hpre : normalize (pre ++ [c]) = normalize pre ++ normalizeChar c :=
      normalize_concat pre c
    have ih' := ih (pre ++ [c]) (by rw [h]; simp)
    rw [hpre, List.length_append, List.length_singleton] at ih'
    simp only [incrementalFrom, List.length_cons, List.range'_succ, List.filterMap_cons]
    rw [ih', hnp]
    simp only [scanAt, matchAt]
    cases patterns.find? (fun pattern => endsWith (normalizedPrefix content pre.length) pattern)
      <;> rfl

theorem incrementalScan_eq (content : JSString) :
    incrementalScan content = (analyzePacket content).dfaLogs := by
  rw [dfaLogs_eq, List.range_eq_range']
  exact incrementalFrom_eq content content [] rfl

/-! ## The state after the end-of-input check -/

theorem truncationCheck_inv (content : JSString) :
    PdaInv (content.length + 1) (truncationCheck content (mainLoop content)) := by
  have inv := runTo_inv content content.length (Nat.le_refl _)
  unfold truncationCheck
  cases hv : (mainLoop content).structureValid with
  | false =>
    simp only [Bool.false_eq_true, if_false]
    exact inv.mono (Nat.le_succ _)
  | true =>
    simp only [if_true]
    split
    · exact inv.mono (Nat.le_succ _)
    · rename_i top _
      have := inv.anomaly hv
        ⟨content.length, utf16 "EOF", truncatedAction top, (mainLoop content).stack, false⟩
        rfl rfl rfl
      exact this

/-- The structural log of the result is either all valid, with a valid final flag, or
ends with its only invalid entry, with an invalid final flag. -/
theorem final_shape (content : JSString) :
    ((analyzePacket content).structureValid = true ∧
      ∀ e ∈ (analyzePacket content).pdaLogs, e.valid = true) ∨
    ((analyzePacket content).structureValid = false ∧
      ∃ init e, (analyzePacket content).pdaLogs = init ++ [e] ∧ e.valid = false ∧
        ∀ e' ∈ init, e'.valid = true) := by
  have inv := truncationCheck_inv content
  cases hv : (analyzePacket content).structureValid with
  | true => exact Or.inl ⟨rfl, inv.all_valid hv⟩
  | false => exact Or.inr ⟨rfl, inv.fault hv⟩

theorem invalid_entry_last (content : JSString) (l1 l2 : List PdaLog) (e : PdaLog)
    (h : (analyzePacket content).pdaLogs = l1 ++ e :: l2) (he : e.valid = false) :
    l2 = [] ∧ ∀ e' ∈ l1, e'.valid = true := by
  rcases final_shape content with ⟨_, hall⟩ | ⟨_, init, e0, hlog, _, hinit⟩
  · have := hall e (by rw [h]; simp)
    rw [he] at this
    cases this
  · rw [h] at hlog
    rcases List.eq_nil_or_concat l2 with rfl | ⟨l3, x, rfl⟩
    · have h' : l1 ++ [e] = init ++ [e0] := hlog
      obtain ⟨h1, _⟩ := List.append_inj' h' rfl
      exact ⟨rfl, by rw [h1]; exact hinit⟩
    · exfalso
      simp only [List.concat_eq_append] at hlog
      have h' : (l1 ++ e :: l3) ++ [x] = init ++ [e0] := by
        simpa [List.append_assoc] using hlog
      obtain ⟨h1, _⟩ := List.append_inj' h' rfl
      have := hinit e (by rw [← h1]; simp)
      rw [he] at this
      cases this

theorem invalid_count (content : JSString) :
    ((analyzePacket content).pdaLogs.filter (fun e => e.valid == false)).length ≤ 1 := by
  rcases final_shape content with ⟨_, hall⟩ | ⟨_, init, e0, hlog, _, hinit⟩
  · have : (analyzePacket content).pdaLogs.filter (fun e => e.valid == false) = [] := by
      rw [List.filter_eq_nil_iff]
      intro e he
      simp [hall e he]
    rw [this]
    exact Nat.zero_le _
  · have : init.filter (fun e => e.valid == false) = [] := by
      rw [List.filter_eq_nil_iff]
      intro e he
      simp [hinit e he]
    rw [hlog, List.filter_append, this, List.nil_append]
    exact List.length_filter_le _ _

theorem invalid_iff_entry (content : JSString) :
    (analyzePacket content).structureValid = false ↔
      ∃ e ∈ (analyzePacket content).pdaLogs, e.valid = false := by
  rcases final_shape content with ⟨hv, hall⟩ | ⟨hv, init, e0, hlog, he0, _⟩
  · constructor
    · intro h
      rw [hv] at h
      cases h
    · rintro ⟨e, he, hf⟩
      have := hall e he
      rw [hf] at this
      cases this
  · exact ⟨fun _ => ⟨e0, by rw [hlog]; simp, he0⟩, fun _ => hv⟩

/-- An invalid entry with an index inside the payload was logged by the loop. -/
theorem fault_in_loop (content : JSString)
    (h : ∃ e ∈ (analyzePacket content).pdaLogs, e.valid = false ∧ e.index < content.length) :
    (mainLoop content).structureValid = false := by
  obtain ⟨e, he, hf, hidx⟩ := h
  have inv := runTo_inv content content.length (Nat.le_refl _)
  have hpda := analyzePacket_pda content
  cases hv : (mainLoop content).structureValid with
  | false => rfl
  | true =>
    exfalso
    cases hl : (mainLoop content).stack.getLast? with
    | none =>
      rw [truncationCheck_empty _ _ (List.getLast?_eq_none_iff.mp hl)] at hpda
      simp only [State.pda, Prod.mk.injEq] at hpda
      rw [hpda.2.2] at he
      have := inv.all_valid hv e he
      rw [hf] at this
      cases this
    | some top =>
      rw [truncationCheck_open content _ top hv hl] at hpda
      simp only [Prod.mk.injEq] at hpda
      rw [hpda.2.2] at he
      rcases List.mem_append.mp he with h1 | h1
      · have := inv.all_valid hv e h1
        rw [hf] at this
        cases this
      · rw [List.mem_singleton.mp h1] at hidx
        exact Nat.lt_irrefl _ hidx

/-! ## The validator reads only its own variables and the current character -/

theorem pdaTransition_pda_congr (s t : State) (i c : Nat) (h : s.pda = t.pda) :
    (pdaTransition s i c).pda = (pdaTransition t i c).pda := by
  obtain ⟨h1, h2, h3⟩ := (pda_eq_iff _ _).mp h
  unfold pdaTransition
  rw [h1, h2, h3]
  cases t.structureValid with
  | false => simpa [State.pda] using ⟨h1, h2, h3⟩
  | true =>
    simp only [if_true]
    split
    · simp [State.pda, h2]
    · split
      · split
        · simp [State.pda]
        · split
          · simp [State.pda, h2]
          · simp [State.pda]
      · simpa [State.pda] using ⟨h1, h2, h3⟩

theorem truncationCheck_pda_congr (c1 c2 : JSString) (s t : State) (hl : c1.length = c2.length)
    (h : s.pda = t.pda) : (truncationCheck c1 s).pda = (truncationCheck c2 t).pda := by
  obtain ⟨h1, h2, h3⟩ := (pda_eq_iff _ _).mp h
  unfold truncationCheck
  rw [h1, h2, h3, hl]
  cases t.structureValid with
  | false => simpa [State.pda] using ⟨h1, h2, h3⟩
  | true =>
    simp only [if_true]
    split
    · simpa [State.pda] using ⟨h1, h2, h3⟩
    · simp [State.pda]

theorem runTo_append_pda (u v : JSString) :
    ∀ n, n ≤ u.length → (runTo (u ++ v) n).pda = (runTo u n).pda := by
  intro n
  induction n with
  | zero => intro _; rfl
  | succ n ih =>
    intro hn
    have hlt : n < u.length := hn
    have hc : u[n]? = some u[n] := List.getElem?_eq_getElem hlt
    have hc' : (u ++ v)[n]? = some u[n] := by
      rw [List.getElem?_append_left hlt, hc]
    rw [runTo_succ, runTo_succ, loopBody_pda _ _ _ _ hc, loopBody_pda _ _ _ _ hc']
    exact pdaTransition_pda_congr _ _ _ _ (ih (Nat.le_of_lt hlt))

/-! ## Snapshots -/

theorem snapshotChain_concat (l : List PdaLog) (e : PdaLog) :
    ∀ prev : List Nat, SnapshotChain prev (l ++ [e]) ↔
      SnapshotChain prev l ∧ SnapshotStep ((l.getLast?.map PdaLog.stack).getD prev) e := by
  induction l with
  | nil =>
    intro prev
    simp [SnapshotChain]
  | cons x l ih =>
    intro prev
    have : (((x :: l).getLast?.map PdaLog.stack).getD prev)
        = ((l.getLast?.map PdaLog.stack).getD x.stack) := by
      cases l with
      | nil => rfl
      | cons y l =>
        rw [List.getLast?_cons_cons]
        cases h : (y :: l).getLast? with
        | none => simp at h
        | some z => rfl
    rw [this]
    show (SnapshotStep prev x ∧ SnapshotChain x.stack (l ++ [e])) ↔
      ((SnapshotStep prev x ∧ SnapshotChain x.stack l) ∧
        SnapshotStep ((l.getLast?.map PdaLog.stack).getD x.stack) e)
    rw [ih x.stack, and_assoc]

/-- The snapshot facts that hold after any number of iterations. -/
theorem SnapInv_step (s : State) (i c : Nat)
    (hlast : (s.pdaLogs.getLast?.map PdaLog.stack).getD [] = s.stack)
    (hchain : SnapshotChain [] s.pdaLogs)
    (hstack : ∀ o ∈ s.stack, isOpener o = true)
    (hsnap : ∀ e ∈ s.pdaLogs, ∀ o ∈ e.stack, isOpener o = true) :
    SnapshotChain [] (pdaTransition s i c).pdaLogs ∧
    (∀ o ∈ (pdaTransition s i c).stack, isOpener o = true) ∧
    (∀ e ∈ (pdaTransition s i c).pdaLogs, ∀ o ∈ e.stack, isOpener o = true) := by
  have add : ∀ (e : PdaLog), SnapshotStep s.stack e → (∀ o ∈ e.stack, isOpener o = true) →
      SnapshotChain [] (s.pdaLogs ++ [e]) ∧
      (∀ e' ∈ s.pdaLogs ++ [e], ∀ o ∈ e'.stack, isOpener o = true) := by
    intro e hstep hop
    refine ⟨(snapshotChain_concat _ _ _).mpr ⟨hchain, by rw [hlast]; exact hstep⟩, ?_⟩
    intro e' he'
    rcases List.mem_append.mp he' with h | h
    · exact hsnap e' h
    · rw [List.mem_singleton.mp h]
      exact hop
  unfold pdaTransition
  cases hv : s.structureValid with
  | false => exact ⟨hchain, hstack, hsnap⟩
  | true =>
    simp only [if_true]
    split
    · rename_i ho
      have hop : ∀ o ∈ s.stack ++ [c], isOpener o = true := by
        intro o hmem
        rcases List.mem_append.mp hmem with h | h
        · exact hstack o h
        · rw [List.mem_singleton.mp h]
          exact ho
      obtain ⟨h1, h2⟩ := add ⟨i, [c], pushAction c, s.stack ++ [c], true⟩
        (Or.inl ⟨c, ho, rfl, rfl, rfl, rfl⟩) hop
      exact ⟨h1, hop, h2⟩
    · split
      · rename_i hc
        split
        · obtain ⟨h1, h2⟩ := add ⟨i, [c], unexpectedClosingAction c, s.stack, false⟩
            (Or.inr (Or.inr ⟨rfl, rfl⟩)) hstack
          exact ⟨h1, hstack, h2⟩
        · rename_i top hl
          split
          · have hop : ∀ o ∈ s.stack.dropLast, isOpener o = true :=
              fun o hmem => hstack o (List.mem_of_mem_dropLast hmem)
            obtain ⟨h1, h2⟩ := add ⟨i, [c], popAction top, s.stack.dropLast, true⟩
              (Or.inr (Or.inl ⟨c, top, hc, rfl, rfl, rfl, hl, rfl⟩)) hop
            exact ⟨h1, hop, h2⟩
          · obtain ⟨h1, h2⟩ := add ⟨i, [c], mismatchAction top c, s.stack, false⟩
              (Or.inr (Or.inr ⟨rfl, rfl⟩)) hstack
            exact ⟨h1, hstack, h2⟩
      · exact ⟨hchain, hstack, hsnap⟩

theorem runTo_snapshots (content : JSString) (n : Nat) (hn : n ≤ content.length) :
    SnapshotChain [] (runTo content n).pdaLogs ∧
    (∀ o ∈ (runTo content n).stack, isOpener o = true) ∧
    (∀ e ∈ (runTo content n).pdaLogs, ∀ o ∈ e.stack, isOpener o = true) := by
  induction n with
  | zero => simp [runTo_zero, State.init, SnapshotChain]
  | succ n ih =>
    have hlt : n < content.length := hn
    have hc : content[n]? = some content[n] := List.getElem?_eq_getElem hlt
    obtain ⟨h1, h2, h3⟩ := ih (Nat.le_of_lt hlt)
    have inv := runTo_inv content n (Nat.le_of_lt hlt)
    obtain ⟨e1, _, e3⟩ := (pda_eq_iff _ _).mp (loopBody_pda content (runTo content n) n _ hc)
    rw [runTo_succ, e1, e3]
    exact SnapInv_step _ n _ inv.last_stack h1 h2 h3

theorem final_snapshots (content : JSString) :
    SnapshotChain [] (analyzePacket content).pdaLogs ∧
    (analyzePacket content).finalStack =
      ((analyzePacket content).pdaLogs.getLast?.map PdaLog.stack).getD [] ∧
    (∀ e ∈ (analyzePacket content).pdaLogs, ∀ o ∈ e.stack, isOpener o = true) := by
  obtain ⟨h1, h2, h3⟩ := runTo_snapshots content content.length (Nat.le_refl _)
  have inv := runTo_inv content content.length (Nat.le_refl _)
  have finv := truncationCheck_inv content
  refine ⟨?_, finv.last_stack.symm, ?_⟩
  · show SnapshotChain [] (truncationCheck content (mainLoop content)).pdaLogs
    unfold truncationCheck
    split
    · split
      · exact h1
      · refine (snapshotChain_concat _ _ _).mpr ⟨h1, ?_⟩
        rw [show (mainLoop content) = runTo content content.length from rfl, inv.last_stack]
        exact Or.inr (Or.inr ⟨rfl, rfl⟩)
    · exact h1
  · show ∀ e ∈ (truncationCheck content (mainLoop content)).pdaLogs, _
    unfold truncationCheck
    split
    · split
      · exact h3
      · intro e he
        rcases List.mem_append.mp he with h | h
        · exact h3 e h
        · rw [List.mem_singleton.mp h]
          exact h2
    · exact h3

/-! ## Letter case -/

theorem asciiFold_cases {a b : Nat} (h : asciiFold a = asciiFold b) :
    a = b ∨ (isDelimiter a = false ∧ isDelimiter b = false) := by
  have nd : ∀ c : Nat, (65 ≤ c ∧ c ≤ 90) ∨ (97 ≤ c ∧ c ≤ 122) → isDelimiter c = false := by
    intro c hc
    simp only [isDelimiter, isOpener, isCloser, Bool.or_eq_false_iff, beq_eq_false_iff_ne,
      ne_eq]
    omega
  unfold asciiFold at h
  by_cases ha : 65 ≤ a ∧ a ≤ 90
  · by_cases hb : 65 ≤ b ∧ b ≤ 90
    · simp only [ha, hb, and_self, if_true] at h
      left
      omega
    · simp only [ha, hb, and_self, if_true, if_false] at h
      right
      exact ⟨nd a (Or.inl ha), nd b (Or.inr (by omega))⟩
  · by_cases hb : 65 ≤ b ∧ b ≤ 90
    · simp only [ha, hb, and_self, if_true, if_false] at h
      right
      exact ⟨nd a (Or.inr (by omega)), nd b (Or.inl hb)⟩
    · simp only [ha, hb, if_false] at h
      exact Or.inl h

theorem toLowerCase_fold (c : Nat) : toLowerCase (asciiFold c) = toLowerCase c := by
  unfold asciiFold
  by_cases h : 65 ≤ c ∧ c ≤ 90
  · have h1 : c ≠ 0x130 := by omega
    have h2 : c + 32 ≠ 0x130 := by omega
    have h3 : c < 128 := by omega
    have h4 : c + 32 < 128 := by omega
    have h5 : ¬ (65 ≤ c + 32 ∧ c + 32 ≤ 90) := by omega
    simp only [h, and_self, if_true, toLowerCase, h1, h2, if_false, lowerUnit, h3, h4, h5]
  · simp only [h, if_false]

theorem normalizeChar_fold (c : Nat) : normalizeChar (asciiFold c) = normalizeChar c := by
  unfold normalizeChar
  rw [toLowerCase_fold]

theorem normalize_fold (u : JSString) : normalize (u.map asciiFold) = normalize u := by
  simp only [normalize, List.map_map]
  congr 1
  apply List.map_congr_left
  intro c _
  exact normalizeChar_fold c

theorem matchAt_fold (u v : JSString) (h : u.map asciiFold = v.map asciiFold) (i : Nat) :
    matchAt u i = matchAt v i := by
  unfold matchAt
  rw [normalizedPrefix_eq, normalizedPrefix_eq, ← normalize_fold (u.take (i + 1)),
    ← normalize_fold (v.take (i + 1)), List.map_take, List.map_take, h]

theorem runTo_fold_pda (u v : JSString) (h : u.map asciiFold = v.map asciiFold) :
    ∀ n, n ≤ u.length → (runTo u n).pda = (runTo v n).pda := by
  have hlen : u.length = v.length := by
    have := congrArg List.length h
    simpa using this
  intro n
  induction n with
  | zero => intro _; rfl
  | succ n ih =>
    intro hn
    have hlt : n < u.length := hn
    have hlt' : n < v.length := by omega
    have hc : u[n]? = some u[n] := List.getElem?_eq_getElem hlt
    have hc' : v[n]? = some v[n] := List.getElem?_eq_getElem hlt'
    have hf : asciiFold u[n] = asciiFold v[n] := by
      have := congrArg (fun l => l[n]?) h
      simpa [hc, hc'] using this
    rw [runTo_succ, runTo_succ, loopBody_pda _ _ _ _ hc, loopBody_pda _ _ _ _ hc']
    rcases asciiFold_cases hf with heq | ⟨h1, h2⟩
    · rw [heq]
      exact pdaTransition_pda_congr _ _ _ _ (ih (Nat.le_of_lt hlt))
    · rw [pdaTransition_other _ _ _ h1, pdaTransition_other _ _ _ h2]
      exact ih (Nat.le_of_lt hlt)

theorem dfaLogs_keys (content : JSString) :
    (analyzePacket content).dfaLogs.map (fun e => (e.index, e.pattern)) =
      (List.range content.length).filterMap
        (fun i => (matchAt content i).map (fun p => (i, p))) := by
  rw [dfaLogs_eq, List.map_filterMap]
  apply List.filterMap_congr
  intro i _
  simp only [scanAt, Option.map_map]
  rfl

theorem verdict_of_fields (c1 c2 : JSString)
    (h1 : (analyzePacket c1).structureValid = (analyzePacket c2).structureValid)
    (h2 : (analyzePacket c1).malwareFound = (analyzePacket c2).malwareFound) :
    (analyzePacket c1).decision = (analyzePacket c2).decision ∧
      (analyzePacket c1).reason = (analyzePacket c2).reason := by
  have hd : ∀ c, (analyzePacket c).decision
      = (verdict (analyzePacket c).structureValid (analyzePacket c).malwareFound).1 :=
    fun _ => rfl
  have hr : ∀ c, (analyzePacket c).reason
      = (verdict (analyzePacket c).structureValid (analyzePacket c).malwareFound).2 :=
    fun _ => rfl
  rw [hd c1, hd c2, hr c1, hr c2, h1, h2]
  exact ⟨rfl, rfl⟩
/-! ## Claims -/

/-- C1: the final structural-validity flag of `analyzePacket` is true exactly when the
subsequence of delimiter characters of the payload is a balanced, type-correct nesting;
consequently two payloads with the same delimiter subsequence get the same flag, whatever
their other characters are. -/
theorem structureValid_eq_balanced_delimiters (content : JSString) :
    ((analyzePacket content).structureValid = true ↔ Balanced (content.filter isDelimiter)) ∧
    ∀ other : JSString, other.filter isDelimiter = content.filter isDelimiter →
      (analyzePacket other).structureValid = (analyzePacket content).structureValid := by
  refine ⟨structureValid_iff_balanced content, ?_⟩
  intro other h
  have h1 := structureValid_iff_balanced content
  have h2 := structureValid_iff_balanced other
  rw [h] at h2
  exact Bool.eq_iff_iff.mpr (h2.trans h1.symm)

/-- C2: the verdict follows the priority order: an invalid structure gives BLOCKED with
reason "Malformed/Injection" even when signatures matched; otherwise a non-empty signature
log gives BLOCKED with reason "Phishing Signature"; otherwise the verdict is ALLOWED with
reason "Clean".  The decision is ALLOWED exactly when the reason is "Clean", and no other
pair of decision and reason is returned. -/
theorem verdict_priority (content : JSString) :
    ((analyzePacket content).structureValid = false →
      (analyzePacket content).decision = utf16 "BLOCKED" ∧
      (analyzePacket content).reason = utf16 "Malformed/Injection") ∧
    ((analyzePacket content).structureValid = true → (analyzePacket content).dfaLogs ≠ [] →
      (analyzePacket content).decision = utf16 "BLOCKED" ∧
      (analyzePacket content).reason = utf16 "Phishing Signature") ∧
    ((analyzePacket content).structureValid = true → (analyzePacket content).dfaLogs = [] →
      (analyzePacket content).decision = utf16 "ALLOWED" ∧
      (analyzePacket content).reason = utf16 "Clean") ∧
    ((analyzePacket content).decision = utf16 "ALLOWED" ↔
      (analyzePacket content).reason = utf16 "Clean") ∧
    (((analyzePacket content).decision, (analyzePacket content).reason) ∈
      [(utf16 "BLOCKED", utf16 "Malformed/Injection"),
       (utf16 "BLOCKED", utf16 "Phishing Signature"), (utf16 "ALLOWED", utf16 "Clean")]) := by
  have key : ∀ sv mf : Bool,
      (sv = false → (verdict sv mf).1 = utf16 "BLOCKED" ∧
        (verdict sv mf).2 = utf16 "Malformed/Injection") ∧
      (sv = true → mf = true → (verdict sv mf).1 = utf16 "BLOCKED" ∧
        (verdict sv mf).2 = utf16 "Phishing Signature") ∧
      (sv = true → mf = false → (verdict sv mf).1 = utf16 "ALLOWED" ∧
        (verdict sv mf).2 = utf16 "Clean") ∧
      ((verdict sv mf).1 = utf16 "ALLOWED" ↔ (verdict sv mf).2 = utf16 "Clean") ∧
      (((verdict sv mf).1, (verdict sv mf).2) ∈
        [(utf16 "BLOCKED", utf16 "Malformed/Injection"),
         (utf16 "BLOCKED", utf16 "Phishing Signature"), (utf16 "ALLOWED", utf16 "Clean")]) := by
    decide
  have hm := malwareFound_iff_logged content
  obtain ⟨k1, k2, k3, k4, k5⟩ :=
    key (analyzePacket content).structureValid (analyzePacket content).malwareFound
  refine ⟨k1, fun h1 h2 => k2 h1 (hm.mpr h2), fun h1 h2 => k3 h1 ?_, k4, k5⟩
  cases hmf : (analyzePacket content).malwareFound with
  | false => rfl
  | true => exact absurd h2 (hm.mp hmf)

/-- C3: the match flag `malwareFound` is true exactly when the character-wise
normalisation of the whole payload contains one of the eight blocklist terms as a
contiguous substring, and exactly when the signature log is non-empty. -/
theorem malwareFound_iff_term_occurs (content : JSString) :
    ((analyzePacket content).malwareFound = true ↔
      ∃ p ∈ patterns, p <:+: normalize content) ∧
    ((analyzePacket content).malwareFound = true ↔ (analyzePacket content).dfaLogs ≠ []) ∧
    patterns = [utf16 "paypal", utf16 "secure", utf16 "login", utf16 "bank", utf16 "select",
      utf16 "union", utf16 "script", utf16 "admin"] :=
  ⟨(malwareFound_iff_logged content).trans (logged_iff_occurs content),
    malwareFound_iff_logged content, rfl⟩

/-- C4: for every position `i` of the payload the signature log has an entry with index
`i` exactly when the normalised prefix through `i` ends with a blocklist term; no two
entries share an index; the pattern of an entry is the first term in table order that
ends the normalised prefix at its index; and the indices of the log are strictly
increasing. -/
theorem dfaLogs_one_entry_per_match (content : JSString) :
    (∀ i : Nat, i < content.length →
      ((∃ e ∈ (analyzePacket content).dfaLogs, e.index = i) ↔
        ∃ p ∈ patterns, p <:+ normalize (content.take (i + 1)))) ∧
    ((analyzePacket content).dfaLogs.map DfaLog.index).Nodup ∧
    (∀ e ∈ (analyzePacket content).dfaLogs, ∀ e' ∈ (analyzePacket content).dfaLogs,
      e.index = e'.index → e = e') ∧
    (∀ e ∈ (analyzePacket content).dfaLogs,
      e.pattern <:+ normalize (content.take (e.index + 1)) ∧
      ∃ k : Nat, patterns[k]? = some e.pattern ∧
        ∀ j : Nat, j < k → ∀ q, patterns[j]? = some q →
          ¬ q <:+ normalize (content.take (e.index + 1))) ∧
    ((analyzePacket content).dfaLogs.map DfaLog.index).Pairwise (· < ·) := by
  refine ⟨?_, ?_, ?_, ?_, dfaLogs_sorted content⟩
  · intro i hi
    rw [← matchAt_isSome_iff]
    constructor
    · rintro ⟨e, he, rfl⟩
      obtain ⟨j, _, p, hp, rfl⟩ := (mem_dfaLogs_iff content e).mp he
      exact ⟨p, hp⟩
    · rintro ⟨p, hp⟩
      exact ⟨entryAt content i p, (mem_dfaLogs_iff content _).mpr ⟨i, hi, p, hp, rfl⟩, rfl⟩
  · exact (dfaLogs_sorted content).imp (fun h => Nat.ne_of_lt h)
  · intro e he e' he' hidx
    obtain ⟨i, _, p, hp, rfl⟩ := (mem_dfaLogs_iff content e).mp he
    obtain ⟨j, _, q, hq, rfl⟩ := (mem_dfaLogs_iff content e').mp he'
    have hij : i = j := hidx
    subst hij
    rw [hp] at hq
    cases hq
    rfl
  · intro e he
    obtain ⟨i, _, p, hp, rfl⟩ := (mem_dfaLogs_iff content e).mp he
    exact (matchAt_some_iff content i p).mp hp

/-- C5: for every entry of the signature log with index `i`, pattern `p` and snippet `s`,
the start position `i - |p| + 1` is non-negative, `s` is the raw payload from that start
through `i` (so `|s| = |p|`), and the character-wise normalisation of `s` is `p`. -/
theorem snippet_is_raw_span (content : JSString) (e : DfaLog)
    (he : e ∈ (analyzePacket content).dfaLogs) :
    0 ≤ (e.index : Int) - (e.pattern.length : Int) + 1 ∧
    e.snippet = (content.drop (e.index + 1 - e.pattern.length)).take e.pattern.length ∧
    e.snippet.length = e.pattern.length ∧
    normalize e.snippet = e.pattern := by
  obtain ⟨i, hi, p, hp, rfl⟩ := (mem_dfaLogs_iff content e).mp he
  obtain ⟨h1, h2, h3, h4⟩ := entryAt_facts content i p hi hp
  refine ⟨?_, h2, h3, h4⟩
  show 0 ≤ (i : Int) - (p.length : Int) + 1
  omega

/-- Witness of C5: in the payload "P4YPAL-S3CUR3" the log has the entry with pattern
"paypal" at index 5 whose snippet is "P4YPAL", it has the properties of C5, and the
verdict is BLOCKED with reason "Phishing Signature". -/
theorem snippet_is_raw_span_witness :
    ∃ e ∈ (analyzePacket (utf16 "P4YPAL-S3CUR3")).dfaLogs,
      e.index = 5 ∧ e.pattern = utf16 "paypal" ∧ e.snippet = utf16 "P4YPAL" ∧
      (0 ≤ (e.index : Int) - (e.pattern.length : Int) + 1 ∧
        e.snippet = ((utf16 "P4YPAL-S3CUR3").drop (e.index + 1 - e.pattern.length)).take
          e.pattern.length ∧
        e.snippet.length = e.pattern.length ∧
        normalize e.snippet = e.pattern) ∧
      (analyzePacket (utf16 "P4YPAL-S3CUR3")).decision = utf16 "BLOCKED" ∧
      (analyzePacket (utf16 "P4YPAL-S3CUR3")).reason = utf16 "Phishing Signature" :=
  ⟨⟨5, utf16 "paypal", utf16 "P4YPAL", phishingAction (utf16 "P4YPAL") (utf16 "paypal")⟩,
    by decide, rfl, rfl, rfl, snippet_is_raw_span _ _ (by decide), by decide, by decide⟩

/-- C6: `normalizeChar` is total; with `l` the lower-cased form of its argument it returns
o, l, i, a, a, s, s, e, t when `l` is 0, 1, !, @, 4, $, 5, 3, 7 respectively, returns `l`
itself in every other case, and never returns the empty string. -/
theorem normalizeChar_table (c : Nat) :
    (toLowerCase c = utf16 "0" → normalizeChar c = utf16 "o") ∧
    (toLowerCase c = utf16 "1" → normalizeChar c = utf16 "l") ∧
    (toLowerCase c = utf16 "!" → normalizeChar c = utf16 "i") ∧
    (toLowerCase c = utf16 "@" → normalizeChar c = utf16 "a") ∧
    (toLowerCase c = utf16 "4" → normalizeChar c = utf16 "a") ∧
    (toLowerCase c = utf16 "$" → normalizeChar c = utf16 "s") ∧
    (toLowerCase c = utf16 "5" → normalizeChar c = utf16 "s") ∧
    (toLowerCase c = utf16 "3" → normalizeChar c = utf16 "e") ∧
    (toLowerCase c = utf16 "7" → normalizeChar c = utf16 "t") ∧
    (toLowerCase c ∉ [utf16 "0", utf16 "1", utf16 "!", utf16 "@", utf16 "4", utf16 "$",
        utf16 "5", utf16 "3", utf16 "7"] → normalizeChar c = toLowerCase c) ∧
    normalizeChar c ≠ [] := by
  have key : ∀ l v : JSString, (match map.lookup l with
      | some w => if w = [] then l else w
      | none => l) = v → toLowerCase c = l → normalizeChar c = v := by
    intro l v h hl
    unfold normalizeChar
    simp only [hl]
    exact h
  refine ⟨key _ _ (by decide), key _ _ (by decide), key _ _ (by decide), key _ _ (by decide),
    key _ _ (by decide), key _ _ (by decide), key _ _ (by decide), key _ _ (by decide),
    key _ _ (by decide), ?_, normalizeChar_ne_nil c⟩
  intro h
  unfold normalizeChar
  simp only [lookup_other _ h]

/-- C7 (balanced-neutral): when the delimiters of the payload are correctly nested and its
normalised text contains no blocklist term, the decision is ALLOWED (reason "Clean"), the
signature log is empty, every structural log entry is valid, the final stack is empty and
the snapshot of the last structural entry, if there is one, is empty. -/
theorem balanced_neutral (content : JSString)
    (hb : Balanced (content.filter isDelimiter))
    (hn : ∀ p ∈ patterns, ¬ p <:+: normalize content) :
    (analyzePacket content).decision = utf16 "ALLOWED" ∧
    (analyzePacket content).reason = utf16 "Clean" ∧
    (analyzePacket content).dfaLogs = [] ∧
    (∀ e ∈ (analyzePacket content).pdaLogs, e.valid = true) ∧
    (analyzePacket content).finalStack = [] ∧
    (∀ e, (analyzePacket content).pdaLogs.getLast? = some e → e.stack = []) := by
  have hvalid := (structureValid_iff_balanced content).mpr hb
  have hlog : (analyzePacket content).dfaLogs = [] := by
    by_contra h
    obtain ⟨p, hp, hinf⟩ := (logged_iff_occurs content).mp h
    exact hn p hp hinf
  have hmf : (analyzePacket content).malwareFound = false := by
    cases h : (analyzePacket content).malwareFound with
    | false => rfl
    | true => exact absurd hlog ((malwareFound_iff_logged content).mp h)
  obtain ⟨hd, hr⟩ := allowed_of_clean content hvalid hmf
  have hts : (mainLoop content).trackState = some [] :=
    (truncationCheck_valid content _).mp hvalid
  have hv : (mainLoop content).structureValid = true := by
    cases h : (mainLoop content).structureValid with
    | true => rfl
    | false => simp [State.trackState, h] at hts
  have hst : (mainLoop content).stack = [] := by
    simpa [State.trackState, hv] using hts
  have hpda := analyzePacket_pda content
  rw [truncationCheck_empty _ _ hst] at hpda
  simp only [State.pda, Prod.mk.injEq] at hpda
  obtain ⟨e1, _, e3⟩ := hpda
  have inv := runTo_inv content content.length (Nat.le_refl _)
  refine ⟨hd, hr, hlog, ?_, by rw [e1]; exact hst, ?_⟩
  · rw [e3]
    exact inv.all_valid hv
  · intro e he
    rw [e3] at he
    have := inv.last_stack
    rw [show (runTo content content.length) = mainLoop content from rfl, he, hst] at this
    simpa using this

/-- Witness of C7: the payload "(a(b)c)". -/
theorem balanced_neutral_witness :
    Balanced ((utf16 "(a(b)c)").filter isDelimiter) ∧
    (∀ p ∈ patterns, ¬ p <:+: normalize (utf16 "(a(b)c)")) ∧
    (analyzePacket (utf16 "(a(b)c)")).decision = utf16 "ALLOWED" ∧
    (analyzePacket (utf16 "(a(b)c)")).reason = utf16 "Clean" ∧
    (analyzePacket (utf16 "(a(b)c)")).dfaLogs = [] ∧
    (∀ e ∈ (analyzePacket (utf16 "(a(b)c)")).pdaLogs, e.valid = true) ∧
    (analyzePacket (utf16 "(a(b)c)")).finalStack = [] ∧
    (∀ e, (analyzePacket (utf16 "(a(b)c)")).pdaLogs.getLast? = some e → e.stack = []) :=
  ⟨Balanced.paren (Balanced.paren Balanced.nil), by decide,
    balanced_neutral (utf16 "(a(b)c)") (Balanced.paren (Balanced.paren Balanced.nil))
      (by decide)⟩

/-- C8 (unexpected closer): when the first delimiter character of the payload is a
closing symbol, at position `k`, the structural log is the single "unexpected closing"
anomaly entry at index `k` carrying that character, the empty stack and `valid = false`;
the final stack is empty and the verdict is BLOCKED with reason "Malformed/Injection". -/
theorem unexpected_closer (content : JSString) (k c : Nat)
    (hk : content[k]? = some c) (hc : isCloser c = true)
    (hfirst : ∀ j : Nat, j < k → ∀ d, content[j]? = some d → isDelimiter d = false) :
    (analyzePacket content).pdaLogs = [⟨k, [c], unexpectedClosingAction c, [], false⟩] ∧
    (analyzePacket content).finalStack = [] ∧
    (analyzePacket content).structureValid = false ∧
    (analyzePacket content).decision = utf16 "BLOCKED" ∧
    (analyzePacket content).reason = utf16 "Malformed/Injection" := by
  have hlt : k < content.length := by
    rcases Nat.lt_or_ge k content.length with h | h
    · exact h
    · rw [List.getElem?_eq_none h] at hk
      cases hk
  have h0 := (pda_eq_iff _ _).mp
    (runTo_pda_of_no_delimiter content k hfirst k (Nat.le_refl _) (Nat.le_of_lt hlt))
  have h1 : (runTo content (k + 1)).pda =
      ([], false, [⟨k, [c], unexpectedClosingAction c, [], false⟩]) := by
    rw [runTo_succ, loopBody_pda _ _ _ _ hk,
      pdaTransition_unexpected _ _ _ (by rw [h0.2.1]; rfl) hc (by rw [h0.1]; rfl), h0.2.2]
    rfl
  simp only [State.pda, Prod.mk.injEq] at h1
  obtain ⟨s1, s2, s3⟩ := h1
  obtain ⟨f1, f2, f3⟩ := analyzePacket_pda_of_fault content (k + 1) hlt s2
  obtain ⟨hd, hr⟩ := blocked_of_invalid content f2
  exact ⟨by rw [f3, s3], by rw [f1, s1], f2, hd, hr⟩

/-- Witness of C8: the payload ")" gives the single anomaly entry at position 0. -/
theorem unexpected_closer_witness :
    (analyzePacket (utf16 ")")).pdaLogs = [⟨0, utf16 ")", unexpectedClosingAction 41, [], false⟩] ∧
    (analyzePacket (utf16 ")")).finalStack = [] ∧
    (analyzePacket (utf16 ")")).structureValid = false ∧
    (analyzePacket (utf16 ")")).decision = utf16 "BLOCKED" ∧
    (analyzePacket (utf16 ")")).reason = utf16 "Malformed/Injection" :=
  unexpected_closer (utf16 ")") 0 41 rfl rfl (fun j hj => absurd hj (Nat.not_lt_zero j))

/-- C9 (mismatched pair): when, with the validator still valid after the positions before
`k`, the closing symbol at position `k` meets a non-empty stack whose top is not its
opener, the structural log is the log as it was before position `k` followed by the
mismatch anomaly at index `k` with `valid = false`; the stack is not popped (the entry's
snapshot and the final stack are the stack before position `k`); every entry has an index
below the payload length, so no end-of-input entry is added; and the verdict is BLOCKED
with reason "Malformed/Injection". -/
theorem mismatched_pair (content : JSString) (k c top : Nat)
    (hk : content[k]? = some c) (hc : isCloser c = true)
    (hv : (runTo content k).structureValid = true)
    (htop : (runTo content k).stack.getLast? = some top)
    (hm : closes c top = false) :
    (analyzePacket content).pdaLogs = (runTo content k).pdaLogs ++
      [⟨k, [c], mismatchAction top c, (runTo content k).stack, false⟩] ∧
    (analyzePacket content).pdaLogs.getLast? =
      some ⟨k, [c], mismatchAction top c, (runTo content k).stack, false⟩ ∧
    (analyzePacket content).finalStack = (runTo content k).stack ∧
    (∀ e ∈ (analyzePacket content).pdaLogs, e.index < content.length) ∧
    (analyzePacket content).structureValid = false ∧
    (analyzePacket content).decision = utf16 "BLOCKED" ∧
    (analyzePacket content).reason = utf16 "Malformed/Injection" := by
  have hlt : k < content.length := by
    rcases Nat.lt_or_ge k content.length with h | h
    · exact h
    · rw [List.getElem?_eq_none h] at hk
      cases hk
  have h1 : (runTo content (k + 1)).pda =
      ((runTo content k).stack, false, (runTo content k).pdaLogs ++
        [⟨k, [c], mismatchAction top c, (runTo content k).stack, false⟩]) := by
    rw [runTo_succ, loopBody_pda _ _ _ _ hk]
    exact pdaTransition_mismatch _ _ _ _ hv hc htop hm
  simp only [State.pda, Prod.mk.injEq] at h1
  obtain ⟨s1, s2, s3⟩ := h1
  obtain ⟨f1, f2, f3⟩ := analyzePacket_pda_of_fault content (k + 1) hlt s2
  obtain ⟨hd, hr⟩ := blocked_of_invalid content f2
  have inv := runTo_inv content (k + 1) hlt
  refine ⟨by rw [f3, s3], by rw [f3, s3]; simp, by rw [f1, s1], ?_, f2, hd, hr⟩
  intro e he
  rw [f3] at he
  exact Nat.lt_of_lt_of_le (inv.index_lt e he) hlt

/-- Witness of C9: the payload `<a` followed by a closing brace logs the anomaly at
position 2 with stack `[<]`. -/
theorem mismatched_pair_witness :
    (analyzePacket (utf16 "<a\x7d")).pdaLogs =
      [⟨0, utf16 "<", pushAction 60, [60], true⟩] ++
        [⟨2, [125], mismatchAction 60 125, [60], false⟩] ∧
    (analyzePacket (utf16 "<a\x7d")).pdaLogs.getLast? =
      some ⟨2, [125], mismatchAction 60 125, [60], false⟩ ∧
    (analyzePacket (utf16 "<a\x7d")).finalStack = [60] ∧
    (∀ e ∈ (analyzePacket (utf16 "<a\x7d")).pdaLogs, e.index < 3) ∧
    (analyzePacket (utf16 "<a\x7d")).structureValid = false ∧
    (analyzePacket (utf16 "<a\x7d")).decision = utf16 "BLOCKED" ∧
    (analyzePacket (utf16 "<a\x7d")).reason = utf16 "Malformed/Injection" :=
  mismatched_pair (utf16 "<a\x7d") 2 125 60 rfl rfl rfl rfl rfl

/-- C10 (truncation): when the pass ends without a structural fault but with a non-empty
stack, the structural log is the log of the pass, all of whose entries are valid, followed
by one synthetic entry with index equal to the payload length, char "EOF", `valid = false`
and the remaining stack as snapshot; that stack lists the unclosed openers in opening
order (its elements are openers, and appending their closers, innermost first, balances
the delimiters of the payload); and the verdict is BLOCKED with reason
"Malformed/Injection".  Conversely an entry with index equal to the payload length occurs
in the structural log only in that situation. -/
theorem truncation (content : JSString) :
    ((mainLoop content).structureValid = true → (mainLoop content).stack ≠ [] →
      ∃ top, (mainLoop content).stack.getLast? = some top ∧
        (analyzePacket content).pdaLogs = (mainLoop content).pdaLogs ++
          [⟨content.length, utf16 "EOF", truncatedAction top, (mainLoop content).stack,
            false⟩] ∧
        (∀ e ∈ (mainLoop content).pdaLogs, e.valid = true ∧ e.index < content.length) ∧
        (∀ o ∈ (mainLoop content).stack, isOpener o = true) ∧
        Balanced (content.filter isDelimiter ++ closing (mainLoop content).stack) ∧
        (analyzePacket content).finalStack = (mainLoop content).stack ∧
        (analyzePacket content).structureValid = false ∧
        (analyzePacket content).decision = utf16 "BLOCKED" ∧
        (analyzePacket content).reason = utf16 "Malformed/Injection") ∧
    ((∃ e ∈ (analyzePacket content).pdaLogs, e.index = content.length) →
      (mainLoop content).structureValid = true ∧ (mainLoop content).stack ≠ []) := by
  have inv := runTo_inv content content.length (Nat.le_refl _)
  have hpda := analyzePacket_pda content
  constructor
  · intro hv hs
    obtain ⟨top, htop⟩ := getLast?_of_ne_nil _ hs
    rw [truncationCheck_open content _ top hv htop] at hpda
    simp only [Prod.mk.injEq] at hpda
    obtain ⟨e1, e2, e3⟩ := hpda
    obtain ⟨hd, hr⟩ := blocked_of_invalid content e2
    exact ⟨top, htop, e3, fun e he => ⟨inv.all_valid hv e he, inv.index_lt e he⟩,
      (stack_unclosed content hv).1, (stack_unclosed content hv).2, e1, e2, hd, hr⟩
  · rintro ⟨e, he, hidx⟩
    have hno : ∀ e' ∈ (mainLoop content).pdaLogs, e'.index ≠ content.length :=
      fun e' he' => Nat.ne_of_lt (inv.index_lt e' he')
    cases hv : (mainLoop content).structureValid with
    | false =>
      rw [truncationCheck_invalid _ _ hv] at hpda
      simp only [State.pda, Prod.mk.injEq] at hpda
      rw [hpda.2.2] at he
      exact absurd hidx (hno e he)
    | true =>
      refine ⟨rfl, ?_⟩
      intro hs
      rw [truncationCheck_empty _ _ hs] at hpda
      simp only [State.pda, Prod.mk.injEq] at hpda
      rw [hpda.2.2] at he
      exact absurd hidx (hno e he)

/-- Witness of C10: the payload "<a" yields the synthetic entry at position 2. -/
theorem truncation_witness :
    (mainLoop (utf16 "<a")).structureValid = true ∧ (mainLoop (utf16 "<a")).stack = [60] ∧
    (analyzePacket (utf16 "<a")).pdaLogs =
      [⟨0, utf16 "<", pushAction 60, [60], true⟩,
       ⟨2, utf16 "EOF", truncatedAction 60, [60], false⟩] ∧
    (analyzePacket (utf16 "<a")).decision = utf16 "BLOCKED" ∧
    (∃ top, (mainLoop (utf16 "<a")).stack.getLast? = some top ∧
        (analyzePacket (utf16 "<a")).pdaLogs = (mainLoop (utf16 "<a")).pdaLogs ++
          [⟨(utf16 "<a").length, utf16 "EOF", truncatedAction top, (mainLoop (utf16 "<a")).stack,
            false⟩] ∧
        (∀ e ∈ (mainLoop (utf16 "<a")).pdaLogs, e.valid = true ∧ e.index < (utf16 "<a").length) ∧
        (∀ o ∈ (mainLoop (utf16 "<a")).stack, isOpener o = true) ∧
        Balanced ((utf16 "<a").filter isDelimiter ++ closing (mainLoop (utf16 "<a")).stack) ∧
        (analyzePacket (utf16 "<a")).finalStack = (mainLoop (utf16 "<a")).stack ∧
        (analyzePacket (utf16 "<a")).structureValid = false ∧
        (analyzePacket (utf16 "<a")).decision = utf16 "BLOCKED" ∧
        (analyzePacket (utf16 "<a")).reason = utf16 "Malformed/Injection") :=
  ⟨by decide, by decide, by decide, by decide,
    (truncation (utf16 "<a")).1 (by decide) (by decide)⟩

/-- C11 (balanced and malicious): when the delimiters of the payload are correctly nested
and its normalised text contains a blocklist term, the structural log contains only valid
entries and the final stack is empty, the signature log is non-empty and has an entry for
a term that occurs, and the verdict is BLOCKED with reason "Phishing Signature". -/
theorem balanced_malicious (content : JSString)
    (hb : Balanced (content.filter isDelimiter))
    (hm : ∃ p ∈ patterns, p <:+: normalize content) :
    (∀ e ∈ (analyzePacket content).pdaLogs, e.valid = true) ∧
    (analyzePacket content).finalStack = [] ∧
    (analyzePacket content).structureValid = true ∧
    (analyzePacket content).dfaLogs ≠ [] ∧
    (∀ p ∈ patterns, p <:+: normalize content →
      ∃ e ∈ (analyzePacket content).dfaLogs, e.pattern = p) ∧
    (analyzePacket content).decision = utf16 "BLOCKED" ∧
    (analyzePacket content).reason = utf16 "Phishing Signature" := by
  obtain ⟨h1, h2, h3, _⟩ := pda_of_balanced content hb
  have hlog := (logged_iff_occurs content).mpr hm
  obtain ⟨hd, hr⟩ := blocked_of_match content h1 ((malwareFound_iff_logged content).mpr hlog)
  refine ⟨h2, h3, h1, hlog, ?_, hd, hr⟩
  intro p hp ⟨a, b, hab⟩
  obtain ⟨hne, _, hlast⟩ := patterns_aligned p hp
  obtain ⟨n, hn, hs⟩ := occurrence_align p hne hlast content a b hab.symm
  exact ⟨entryAt content n p, logged_at content n p hn hp ⟨a, hs.symm⟩, rfl⟩

/-- Witness of C11: the payload "(SELECT * FROM users)" logs a push at index 0, a pop at
index 20 and a signature entry for "select" with snippet "SELECT" at index 6. -/
theorem balanced_malicious_witness :
    (analyzePacket (utf16 "(SELECT * FROM users)")).pdaLogs =
      [⟨0, utf16 "(", pushAction 40, [40], true⟩, ⟨20, utf16 ")", popAction 40, [], true⟩] ∧
    (analyzePacket (utf16 "(SELECT * FROM users)")).dfaLogs =
      [⟨6, utf16 "select", utf16 "SELECT",
        phishingAction (utf16 "SELECT") (utf16 "select")⟩] ∧
    ((∀ e ∈ (analyzePacket (utf16 "(SELECT * FROM users)")).pdaLogs, e.valid = true) ∧
      (analyzePacket (utf16 "(SELECT * FROM users)")).finalStack = [] ∧
      (analyzePacket (utf16 "(SELECT * FROM users)")).structureValid = true ∧
      (analyzePacket (utf16 "(SELECT * FROM users)")).dfaLogs ≠ [] ∧
      (∀ p ∈ patterns, p <:+: normalize (utf16 "(SELECT * FROM users)") →
        ∃ e ∈ (analyzePacket (utf16 "(SELECT * FROM users)")).dfaLogs, e.pattern = p) ∧
      (analyzePacket (utf16 "(SELECT * FROM users)")).decision = utf16 "BLOCKED" ∧
      (analyzePacket (utf16 "(SELECT * FROM users)")).reason = utf16 "Phishing Signature") :=
  ⟨by decide, by decide,
    balanced_malicious (utf16 "(SELECT * FROM users)") (Balanced.paren Balanced.nil)
      ⟨utf16 "select", by decide, by decide⟩⟩

/-- C12 (completeness and order of matches): every occurrence of a blocklist term in the
normalised payload ends where the normalisation of a raw prefix ends, at some position
`i`, and is logged with index `i` and that term as pattern; and when a term `p` is
completed at position `i` and a term `q` at a later position `j` (overlapping or not),
the log has the entry for `(i, p)` before the entry for `(j, q)`. -/
theorem matches_complete_in_order (content : JSString) :
    (∀ p ∈ patterns, ∀ a b : JSString, normalize content = a ++ p ++ b →
      ∃ i, i < content.length ∧ normalize (content.take (i + 1)) = a ++ p ∧
        ∃ e ∈ (analyzePacket content).dfaLogs, e.index = i ∧ e.pattern = p) ∧
    (∀ (i j : Nat) (p q : JSString), i < j → j < content.length →
      p ∈ patterns → q ∈ patterns →
      p <:+ normalize (content.take (i + 1)) → q <:+ normalize (content.take (j + 1)) →
      ∃ e1 e2 l1 l2 l3, (analyzePacket content).dfaLogs = l1 ++ e1 :: (l2 ++ e2 :: l3) ∧
        e1.index = i ∧ e1.pattern = p ∧ e2.index = j ∧ e2.pattern = q) := by
  constructor
  · intro p hp a b hab
    obtain ⟨hne, _, hlast⟩ := patterns_aligned p hp
    obtain ⟨n, hn, hs⟩ := occurrence_align p hne hlast content a b hab
    exact ⟨n, hn, hs, entryAt content n p, logged_at content n p hn hp ⟨a, hs.symm⟩, rfl, rfl⟩
  · intro i j p q hij hj hp hq hps hqs
    have h1 := logged_at content i p (Nat.lt_trans hij hj) hp hps
    have h2 := logged_at content j q hj hq hqs
    obtain ⟨l1, l2, l3, h⟩ := precedes_of_sorted DfaLog.index _ (dfaLogs_sorted content)
      (entryAt content i p) (entryAt content j q) h1 h2 hij
    exact ⟨_, _, l1, l2, l3, h, rfl, rfl, rfl, rfl⟩

/-- C13 (case-insensitivity): two payloads that differ only in the case of ASCII letters
(they agree after folding ASCII capitals, hence have equal length) get the same decision
and reason, the same structural log, final stack and validity flag, and signature logs
with the same sequence of (index, pattern) pairs. -/
theorem case_insensitive (u v : JSString) (h : u.map asciiFold = v.map asciiFold) :
    u.length = v.length ∧
    (analyzePacket u).decision = (analyzePacket v).decision ∧
    (analyzePacket u).reason = (analyzePacket v).reason ∧
    (analyzePacket u).pdaLogs = (analyzePacket v).pdaLogs ∧
    (analyzePacket u).finalStack = (analyzePacket v).finalStack ∧
    (analyzePacket u).structureValid = (analyzePacket v).structureValid ∧
    (analyzePacket u).dfaLogs.map (fun e => (e.index, e.pattern)) =
      (analyzePacket v).dfaLogs.map (fun e => (e.index, e.pattern)) := by
  have hlen : u.length = v.length := by
    have := congrArg List.length h
    simpa using this
  have hrun : (mainLoop u).pda = (mainLoop v).pda := by
    have := runTo_fold_pda u v h u.length (Nat.le_refl _)
    rw [mainLoop, mainLoop, ← hlen]
    exact this
  have hfin := truncationCheck_pda_congr u v _ _ hlen hrun
  rw [← analyzePacket_pda u, ← analyzePacket_pda v] at hfin
  simp only [Prod.mk.injEq] at hfin
  obtain ⟨hstack, hvalid, hlogs⟩ := hfin
  have hkeys : (analyzePacket u).dfaLogs.map (fun e => (e.index, e.pattern)) =
      (analyzePacket v).dfaLogs.map (fun e => (e.index, e.pattern)) := by
    rw [dfaLogs_keys, dfaLogs_keys, hlen]
    apply List.filterMap_congr
    intro i _
    rw [matchAt_fold u v h i]
  have hmf : (analyzePacket u).malwareFound = (analyzePacket v).malwareFound := by
    apply Bool.eq_iff_iff.mpr
    rw [malwareFound_iff_logged, malwareFound_iff_logged]
    have e1 : ∀ c : JSString, (analyzePacket c).dfaLogs ≠ [] ↔
        (analyzePacket c).dfaLogs.map (fun e => (e.index, e.pattern)) ≠ [] := by
      intro c
      simp
    rw [e1 u, e1 v, hkeys]
  obtain ⟨hd, hr⟩ := verdict_of_fields u v hvalid hmf
  exact ⟨hlen, hd, hr, hlogs, hstack, hvalid, hkeys⟩

/-- Witness of C13: "<PayPal>" and "<PAYPAL>". -/
theorem case_insensitive_witness :
    (utf16 "<PayPal>").map asciiFold = (utf16 "<PAYPAL>").map asciiFold ∧
    (utf16 "<PayPal>").length = (utf16 "<PAYPAL>").length ∧
    (analyzePacket (utf16 "<PayPal>")).decision = (analyzePacket (utf16 "<PAYPAL>")).decision ∧
    (analyzePacket (utf16 "<PayPal>")).reason = (analyzePacket (utf16 "<PAYPAL>")).reason ∧
    (analyzePacket (utf16 "<PayPal>")).pdaLogs = (analyzePacket (utf16 "<PAYPAL>")).pdaLogs ∧
    (analyzePacket (utf16 "<PayPal>")).finalStack =
      (analyzePacket (utf16 "<PAYPAL>")).finalStack ∧
    (analyzePacket (utf16 "<PayPal>")).structureValid =
      (analyzePacket (utf16 "<PAYPAL>")).structureValid ∧
    (analyzePacket (utf16 "<PayPal>")).dfaLogs.map (fun e => (e.index, e.pattern)) =
      (analyzePacket (utf16 "<PAYPAL>")).dfaLogs.map (fun e => (e.index, e.pattern)) :=
  ⟨by decide, case_insensitive (utf16 "<PayPal>") (utf16 "<PAYPAL>") (by decide)⟩

/-- C14 (validity is monotone): once the validity flag is false after some iteration it
is false after every later iteration and in the result; the structural log has at most
one entry with `valid = false`, such an entry is the last entry of the log and all
entries before it are valid; and the final flag is false exactly when such an entry
exists. -/
theorem validity_monotone (content : JSString) :
    (∀ m n : Nat, m ≤ n → (runTo content m).structureValid = false →
      (runTo content n).structureValid = false) ∧
    (∀ m : Nat, m ≤ content.length → (runTo content m).structureValid = false →
      (analyzePacket content).structureValid = false) ∧
    ((analyzePacket content).pdaLogs.filter (fun e => e.valid == false)).length ≤ 1 ∧
    (∀ (l1 l2 : List PdaLog) (e : PdaLog), (analyzePacket content).pdaLogs = l1 ++ e :: l2 →
      e.valid = false → l2 = [] ∧ ∀ e' ∈ l1, e'.valid = true) ∧
    ((analyzePacket content).structureValid = false ↔
      ∃ e ∈ (analyzePacket content).pdaLogs, e.valid = false) := by
  refine ⟨?_, ?_, invalid_count content, ?_, invalid_iff_entry content⟩
  · intro m n hmn h
    have := (pda_eq_iff _ _).mp (runTo_pda_frozen content m n hmn h)
    rw [this.2.1, h]
  · intro m hm h
    exact (analyzePacket_pda_of_fault content m hm h).2.1
  · intro l1 l2 e h he
    exact invalid_entry_last content l1 l2 e h he

/-- C15 (frozen after fault): when the inspection of `u` logs a structural fault at a
position inside `u`, then for every continuation `v` the structural log, the final stack
and the validity flag of `u ++ v` are those of `u`, while the scanner keeps running:
every blocklist term completed at a position inside `v` is logged in the signature log of
`u ++ v` at that position. -/
theorem frozen_after_fault (u v : JSString)
    (hf : ∃ e ∈ (analyzePacket u).pdaLogs, e.valid = false ∧ e.index < u.length) :
    (analyzePacket (u ++ v)).pdaLogs = (analyzePacket u).pdaLogs ∧
    (analyzePacket (u ++ v)).finalStack = (analyzePacket u).finalStack ∧
    (analyzePacket (u ++ v)).structureValid = false ∧
    (analyzePacket u).structureValid = false ∧
    (∀ (i : Nat) (p : JSString), u.length ≤ i → i < (u ++ v).length → p ∈ patterns →
      p <:+ normalize ((u ++ v).take (i + 1)) →
      ∃ e ∈ (analyzePacket (u ++ v)).dfaLogs, e.index = i ∧ e.pattern = p) := by
  have hv : (runTo u u.length).structureValid = false := fault_in_loop u hf
  obtain ⟨a1, a2, a3⟩ := analyzePacket_pda_of_fault u u.length (Nat.le_refl _) hv
  obtain ⟨e1, e2, e3⟩ := (pda_eq_iff _ _).mp (runTo_append_pda u v u.length (Nat.le_refl _))
  have hv' : (runTo (u ++ v) u.length).structureValid = false := by rw [e2, hv]
  obtain ⟨b1, b2, b3⟩ := analyzePacket_pda_of_fault (u ++ v) u.length (by simp) hv'
  refine ⟨by rw [b3, e3, a3], by rw [b1, e1, a1], b2, a2, ?_⟩
  intro i p _ hi hp hs
  exact ⟨entryAt (u ++ v) i p, logged_at (u ++ v) i p hi hp hs, rfl, rfl⟩

/-- Witness of C15: the payload ")" continued by "(bank". -/
theorem frozen_after_fault_witness :
    (∃ e ∈ (analyzePacket (utf16 ")")).pdaLogs, e.valid = false ∧ e.index < (utf16 ")").length) ∧
    (analyzePacket (utf16 ")" ++ utf16 "(bank")).pdaLogs = (analyzePacket (utf16 ")")).pdaLogs ∧
    (analyzePacket (utf16 ")" ++ utf16 "(bank")).finalStack =
      (analyzePacket (utf16 ")")).finalStack ∧
    (analyzePacket (utf16 ")" ++ utf16 "(bank")).structureValid = false ∧
    (analyzePacket (utf16 ")")).structureValid = false ∧
    (∀ (i : Nat) (p : JSString), (utf16 ")").length ≤ i →
      i < (utf16 ")" ++ utf16 "(bank").length → p ∈ patterns →
      p <:+ normalize ((utf16 ")" ++ utf16 "(bank").take (i + 1)) →
      ∃ e ∈ (analyzePacket (utf16 ")" ++ utf16 "(bank")).dfaLogs, e.index = i ∧ e.pattern = p) ∧
    (analyzePacket (utf16 ")" ++ utf16 "(bank")).dfaLogs.map (fun e => (e.index, e.pattern)) =
      [(5, utf16 "bank")] :=
  have hf : ∃ e ∈ (analyzePacket (utf16 ")")).pdaLogs,
      e.valid = false ∧ e.index < (utf16 ")").length :=
    ⟨⟨0, [41], unexpectedClosingAction 41, [], false⟩, by decide, rfl, by decide⟩
  have h := frozen_after_fault (utf16 ")") (utf16 "(bank") hf
  ⟨hf, h.1, h.2.1, h.2.2.1, h.2.2.2.1, h.2.2.2.2, by decide⟩

/-- C16 (log snapshots): in the structural log every entry's snapshot is obtained from the
snapshot of the entry before it (the empty stack for the first entry): a push entry
appends its opener, a pop entry removes the last element, and an anomaly or end-of-input
entry leaves it unchanged.  The final stack is the snapshot of the last entry, or empty
when the log is empty, and every snapshot contains only opener symbols. -/
theorem log_snapshots (content : JSString) :
    SnapshotChain [] (analyzePacket content).pdaLogs ∧
    (analyzePacket content).finalStack =
      ((analyzePacket content).pdaLogs.getLast?.map PdaLog.stack).getD [] ∧
    (∀ e ∈ (analyzePacket content).pdaLogs, ∀ o ∈ e.stack, o = 60 ∨ o = 123 ∨ o = 40) := by
  obtain ⟨h1, h2, h3⟩ := final_snapshots content
  refine ⟨h1, h2, ?_⟩
  intro e he o ho
  have := h3 e he o ho
  simp only [isOpener, Bool.or_eq_true, beq_iff_eq] at this
  omega

/-- C17, as stated, fails: for the one-unit payload U+0130 (capital I with dot above) the
normalised prefix at position 0 is `i` followed by U+0307, of length 2 and not 0 + 1. -/
theorem normalizedPrefix_length_counterexample :
    normalizedPrefix [0x130] 0 = [0x69, 0x307] ∧
    (normalizedPrefix [0x130] 0).length ≠ 0 + 1 := by
  decide

/-- C17 (amended): the normalised prefix at position `i` is the normalised prefix at
position `i - 1` with `normalizeChar(payload[i])` appended; its length is `i + 1` plus the
number of units U+0130 among the first `i + 1` units of the payload (so exactly `i + 1`
when there is none); and the scanner that maintains the normalised text incrementally and
applies the same ordered suffix test produces the signature log of `analyzePacket`. -/
theorem incremental_refinement (content : JSString) :
    (∀ c, content[0]? = some c → normalizedPrefix content 0 = normalizeChar c) ∧
    (∀ (i c : Nat), content[i + 1]? = some c →
      normalizedPrefix content (i + 1) = normalizedPrefix content i ++ normalizeChar c) ∧
    (∀ i : Nat, i < content.length →
      (normalizedPrefix content i).length = i + 1 + (content.take (i + 1)).count 0x130) ∧
    (∀ i : Nat, i < content.length → 0x130 ∉ content.take (i + 1) →
      (normalizedPrefix content i).length = i + 1) ∧
    incrementalScan content = (analyzePacket content).dfaLogs := by
  have hlen : ∀ i : Nat, i < content.length →
      (normalizedPrefix content i).length = i + 1 + (content.take (i + 1)).count 0x130 := by
    intro i hi
    rw [normalizedPrefix_eq, normalize_length, List.length_take]
    congr 1
    omega
  refine ⟨?_, ?_, hlen, ?_, incrementalScan_eq content⟩
  · intro c hc
    rw [normalizedPrefix_succ content 0 c hc]
    rfl
  · intro i c hc
    rw [normalizedPrefix_succ content (i + 1) c hc, normalizedPrefix_eq]
  · intro i hi hno
    rw [hlen i hi, List.count_eq_zero_of_not_mem hno]

/-- C18 (a match is never retracted): the signature log of a payload is a prefix of the
signature log of each of its extensions, and a match flag set for a payload is set for
each of its extensions. -/
theorem match_never_retracted (u v : JSString) :
    (analyzePacket u).dfaLogs <+: (analyzePacket (u ++ v)).dfaLogs ∧
    ((analyzePacket u).malwareFound = true → (analyzePacket (u ++ v)).malwareFound = true) := by
  have h := dfaLogs_append u v
  refine ⟨⟨_, h.symm⟩, ?_⟩
  intro hm
  rw [malwareFound_iff_logged] at hm ⊢
  rw [h]
  intro hnil
  exact hm (List.append_eq_nil.mp hnil).1

/-- C19: no term of the blocklist is a suffix of a different term, so at most one term
ends any given text; hence the scanner run with any permutation of the blocklist as its
table, and the longest-match-wins scanner, produce the signature log of `analyzePacket`. -/
theorem table_order_irrelevant :
    (∀ p ∈ patterns, ∀ q ∈ patterns, p <:+ q → p = q) ∧
    (∀ s : JSString, ∀ p ∈ patterns, ∀ q ∈ patterns, p <:+ s → q <:+ s → p = q) ∧
    (∀ content : JSString, scanWith patterns content = (analyzePacket content).dfaLogs) ∧
    (∀ (table : List JSString) (content : JSString), table.Perm patterns →
      scanWith table content = (analyzePacket content).dfaLogs) ∧
    (∀ content : JSString, scanLongest content = (analyzePacket content).dfaLogs) :=
  ⟨patterns_no_suffix, fun _ _ hp _ hq h1 h2 => unique_suffix hp hq h1 h2,
    fun content => scanWith_eq patterns content (fun _ => Iff.rfl),
    fun table content h => scanWith_eq table content (fun _ => h.mem_iff),
    scanLongest_eq⟩

/-- C20: the digit 1 normalises to the letter l, so "l0g1n" normalises to "logln" and is
not detected: `analyzePacket("l0g1n")` is ALLOWED / "Clean" with an empty signature log,
and for the built-in example "http://www.P4YPAL-S3CUR3.com/l0g1n" the signature log has
exactly the two entries (16, paypal, "P4YPAL") and (23, secure, "S3CUR3"). -/
theorem leet_login_not_detected :
    normalizeChar 49 = utf16 "l" ∧
    normalize (utf16 "l0g1n") = utf16 "logln" ∧
    (analyzePacket (utf16 "l0g1n")).decision = utf16 "ALLOWED" ∧
    (analyzePacket (utf16 "l0g1n")).reason = utf16 "Clean" ∧
    (analyzePacket (utf16 "l0g1n")).dfaLogs = [] ∧
    (analyzePacket (utf16 "http://www.P4YPAL-S3CUR3.com/l0g1n")).dfaLogs =
      [⟨16, utf16 "paypal", utf16 "P4YPAL",
          phishingAction (utf16 "P4YPAL") (utf16 "paypal")⟩,
       ⟨23, utf16 "secure", utf16 "S3CUR3",
          phishingAction (utf16 "S3CUR3") (utf16 "secure")⟩] ∧
    (∀ e ∈ (analyzePacket (utf16 "http://www.P4YPAL-S3CUR3.com/l0g1n")).dfaLogs,
      e.pattern ≠ utf16 "login") := by
  decide

end UnifiedWAF
